import Mathlib

/-!
# Verification of the wordpan-template tutor pipeline

A shallow embedding of the string-processing, routing and persistence logic of
the repository (`ai/run.py`, `ai/src/crews/tutor_router_crew/schemas.py`,
`ai/src/crews/tutor_router_crew/tools/save_word_pair.py`,
`voice-agent/src/agent.py`).

Python strings are modelled as `List Char`.  `str.lower` and `str.strip` are
modelled at the ASCII level (`Char.toLower`, the six ASCII whitespace
characters), which covers every string the repository manipulates.
-/

set_option maxHeartbeats 1000000

/-- Character list of a string literal (Python string values are `List Char` here). -/
def str (s : String) : List Char := s.data

/-- The ASCII apostrophe character (U+0027). -/
def apos : Char := Char.ofNat 39

/-- Singleton apostrophe string, used to assemble the repository's message literals. -/
def apostr : List Char := [apos]

/-- The newline character. -/
def nlc : Char := Char.ofNat 10

/-- ASCII whitespace, as recognised by Python `str.strip` (space, TAB, LF, CR, VT, FF). -/
def isPyWs (c : Char) : Bool :=
  c == ' ' || c == Char.ofNat 9 || c == Char.ofNat 10 || c == Char.ofNat 13 ||
    c == Char.ofNat 11 || c == Char.ofNat 12

/-- Python `str.lstrip()` (whitespace on the left). -/
def lstripWs (s : List Char) : List Char := s.dropWhile isPyWs

/-- Python `str.rstrip()` (whitespace on the right). -/
def rstripWs (s : List Char) : List Char := (s.reverse.dropWhile isPyWs).reverse

/-- Python `str.strip()`. -/
def pyStrip (s : List Char) : List Char := rstripWs (lstripWs s)

/-- Python `str.lower()` (ASCII letters). -/
def pyLower (s : List Char) : List Char := s.map Char.toLower

/-- Python `str.rstrip(cs)`: remove trailing characters drawn from `cs`. -/
def pyRstrip (s : List Char) (cs : List Char) : List Char :=
  (s.reverse.dropWhile (fun c => cs.contains c)).reverse

/-- Python `s.find(pat)`: index of the leftmost occurrence (`none` models `-1`). -/
def pyFind (pat : List Char) : List Char → Option Nat
  | [] => if pat.isPrefixOf ([] : List Char) then some 0 else none
  | c :: rest =>
    if pat.isPrefixOf (c :: rest) then some 0
    else (pyFind pat rest).map (· + 1)

/-- Python `s.find(pat, start)`: leftmost occurrence at index `start` or later. -/
def pyFindFrom (pat s : List Char) (start : Nat) : Option Nat :=
  (pyFind pat (s.drop start)).map (· + start)

/-- Fuelled worker for `pyReplace`; consumes at least one character of `s` per step,
so fuel `s.length` is always sufficient (see `pyReplaceFuel_congr`). -/
def pyReplaceFuel (pat rep : List Char) : Nat → List Char → List Char
  | _, [] => []
  | 0, s => s
  | Nat.succ n, c :: rest =>
    if pat.isPrefixOf (c :: rest) then rep ++ pyReplaceFuel pat rep n ((c :: rest).drop pat.length)
    else c :: pyReplaceFuel pat rep n rest

/-- Python `s.replace(pat, rep)`: left-to-right, non-overlapping replacement of
every occurrence.  An empty pattern inserts `rep` around every character, as in
Python. -/
def pyReplace (s pat rep : List Char) : List Char :=
  if pat = [] then rep ++ s.flatMap (fun c => c :: rep)
  else pyReplaceFuel pat rep s.length s

/-- The two-space string collapsed by the sanitizer's whitespace loop. -/
def twoSpaces : List Char := [' ', ' ']

/-- Fuelled worker for `collapseSpaces`; each iteration strictly shrinks the
string (see `collapseSpaces_no_twoSpaces`), so fuel `s.length` suffices. -/
def collapseSpacesFuel : Nat → List Char → List Char
  | 0, s => s
  | Nat.succ n, s =>
    if twoSpaces <:+: s then collapseSpacesFuel n (pyReplace s twoSpaces [' ']) else s

/-- The `while "  " in content: content = content.replace("  ", " ")` loop of
`_strip_offer_when_already_in_deck`. -/
def collapseSpaces (s : List Char) : List Char := collapseSpacesFuel s.length s

/-! ## Text constants of `ai/run.py` -/

/-- The duplicate marker `"already in your deck"`. -/
def alreadyInYourDeck : List Char := str "already in your deck"

/-- First offer phrase removed by `_strip_offer_when_already_in_deck`. -/
def offerPhrase1 : List Char := str "Would you like me to save this word to your flashcard deck?"

/-- Second offer phrase removed by `_strip_offer_when_already_in_deck`. -/
def offerPhrase2 : List Char := str "Would you like me to add this to your flashcard deck?"

/-- Third offer phrase removed by `_strip_offer_when_already_in_deck`. -/
def offerPhrase3 : List Char := str "Would you like me to add this word to your flashcard deck?"

/-- The `". "` prefix trimmed after removing an offer phrase. -/
def dotSpace : List Char := ['.', ' ']

/-- The save-tool success marker `"Done! I've added"`. -/
def doneMarker : List Char := str "Done! I" ++ apostr ++ str "ve added"

/-- The save-tool success terminator `"You'll see it in your next practice session."`. -/
def practicePhrase : List Char := str "You" ++ apostr ++ str "ll see it in your next practice session."

/-- The duplicate marker `"No duplicate was created"` (without final period). -/
def noDuplicateText : List Char := str "No duplicate was created"

/-- The duplicate terminator `"No duplicate was created."`. -/
def noDuplicateDot : List Char := str "No duplicate was created."

/-- The duplicate start marker `"This word pair"`. -/
def thisWordPair : List Char := str "This word pair"

/-! ## The two output sanitizers (`ai/run.py`, lines 175–219) -/

/-- One iteration of the offer-removal loop body of
`_strip_offer_when_already_in_deck` (replace, strip, collapse spaces, trim a
leading `". "`), applied only when `phrase` occurs in `content`. -/
def stripOfferStep (content phrase : List Char) : List Char :=
  if phrase <:+: content then
    let c1 := collapseSpaces (pyStrip (pyReplace content phrase []))
    if dotSpace.isPrefixOf c1 then pyStrip (c1.drop 2) else c1
  else content

/-- `_strip_offer_when_already_in_deck` of `ai/run.py`. -/
def _strip_offer_when_already_in_deck (content : List Char) : List Char :=
  if content = [] ∨ ¬ (alreadyInYourDeck <:+: content) then content
  else stripOfferStep (stripOfferStep (stripOfferStep content offerPhrase1) offerPhrase2)
    offerPhrase3

/-- `_extract_save_tool_message_only` of `ai/run.py`. -/
def _extract_save_tool_message_only (content : List Char) : List Char :=
  if content = [] ∨ pyStrip content = [] then content
  else if doneMarker <:+: content then
    match pyFind doneMarker content with
    | some start =>
      match pyFindFrom practicePhrase content start with
      | some e => pyStrip ((content.take (e + practicePhrase.length)).drop start)
      | none => pyStrip (content.drop start)
    | none => content
  else if alreadyInYourDeck <:+: content ∨ noDuplicateText <:+: content then
    match pyFind thisWordPair content with
    | some start =>
      match pyFindFrom noDuplicateDot content start with
      | some e => pyStrip ((content.take (e + noDuplicateDot.length)).drop start)
      | none => pyStrip (content.drop start)
    | none => content
  else content

/-! ## The confirmation-override detector (`ai/run.py`, lines 164–259) -/

/-- One chat message, a `{"role": ..., "content": ...}` dict of `run.py`. -/
structure Msg where
  role : List Char
  content : List Char
deriving DecidableEq

/-- `_SAVE_CONFIRMATION_PHRASES` of `ai/run.py` (each phrase stripped and lowered,
exactly as the frozenset comprehension does). -/
def _SAVE_CONFIRMATION_PHRASES : List (List Char) :=
  [str "yes", str "yeah", str "yep", str "sure", str "ok", str "okay", str "please",
    str "please do", str "save it", str "yes, save it", str "yes save it", str "add it",
    str "add it please", str "go ahead", str "do it", str "yes please", str "sure thing"].map
    fun p => pyLower (pyStrip p)

/-- The keyword tuple `("yes", "save", "add", "sure", "please")` of the detector. -/
def confirmationKeywords : List (List Char) :=
  [str "yes", str "save", str "add", str "sure", str "please"]

/-- The backwards scan for the most recent assistant message, returning its
stripped and lowered content. -/
def findLastAssistantContent (messages : List Msg) : Option (List Char) :=
  (messages.reverse.find? fun m => m.role == str "assistant").map
    fun m => pyLower (pyStrip m.content)

/-- The detector's normalisation of the last user message:
`content.strip().lower().rstrip(".,!?")`. -/
def normalizedUserContent (m : Msg) : List Char :=
  pyRstrip (pyLower (pyStrip m.content)) (str ".,!?")

/-- `_detect_save_confirmation_and_override_intent` of `ai/run.py`. -/
def _detect_save_confirmation_and_override_intent (messages : List Msg) :
    Option (List Char) :=
  if messages.length < 2 then none
  else
    match messages.getLast? with
    | none => none
    | some lastMsg =>
      if lastMsg.role ≠ str "user" then none
      else
        if normalizedUserContent lastMsg = [] ∨ 60 < (normalizedUserContent lastMsg).length then
          none
        else if normalizedUserContent lastMsg ∉ _SAVE_CONFIRMATION_PHRASES ∧
            ¬ ((∃ w ∈ confirmationKeywords, w <:+: normalizedUserContent lastMsg) ∧
              (normalizedUserContent lastMsg).length ≤ 25) then
          none
        else
          match findLastAssistantContent messages with
          | none => none
          | some a =>
            if a = [] then none
            else if ¬ (str "flashcard" <:+: a) then none
            else if ¬ (str "save" <:+: a) ∧ ¬ (str "add" <:+: a) then none
            else if str "new word" <:+: a ∨ str "vocabulary" <:+: a then
              some (str "new_vocabulary")
            else some (str "translation")

/-- Sanity check of the detector embedding on a save-offer conversation. -/
theorem detect_sample_translation :
    _detect_save_confirmation_and_override_intent
      [⟨str "assistant", str "Would you like me to save this word to your flashcard deck?"⟩,
        ⟨str "user", str "Yes!"⟩] = some (str "translation") := by decide

/-- Sanity check: the new-word wording routes to new_vocabulary. -/
theorem detect_sample_new_vocabulary :
    _detect_save_confirmation_and_override_intent
      [⟨str "assistant", str "A new word! Shall I add it to your flashcard deck?"⟩,
        ⟨str "user", str "sure"⟩] = some (str "new_vocabulary") := by decide

/-- Sanity check: a confirmation after a non-offer assistant turn is not detected. -/
theorem detect_sample_none :
    _detect_save_confirmation_and_override_intent
      [⟨str "assistant", str "hola means hello"⟩, ⟨str "user", str "yes"⟩] = none := by decide

/-- Sanity check of the offer stripper on a duplicate-report message. -/
theorem strip_offer_sample :
    _strip_offer_when_already_in_deck
      (str "That pair is already in your deck. Would you like me to save this word to your flashcard deck?")
      = str "That pair is already in your deck." := by decide

/-- Sanity check of the extractor on a Done-marker message with trailing chatter. -/
theorem extract_sample :
    _extract_save_tool_message_only
      (str "Hola! Done! I" ++ apostr ++ str "ve added x to your flashcard deck. You" ++ apostr ++
        str "ll see it in your next practice session. Anything else?")
      = str "Done! I" ++ apostr ++ str "ve added x to your flashcard deck. You" ++ apostr ++
        str "ll see it in your next practice session." := by decide

/-! ## Schemas (`ai/src/crews/tutor_router_crew/schemas.py`) -/

/-- The seven values of the `IntentType` literal type. -/
def intentValues : List (List Char) :=
  [str "translation", str "new_vocabulary", str "grammar_explanation", str "writing_correction",
    str "cultural_context", str "small_talk_language_related", str "off_topic"]

/-- `RouterDecision` of `schemas.py`. -/
structure RouterDecision where
  intent : List Char
  allowed_domain : Bool
  specialist_instruction : List Char
  refusal_message : Option (List Char)
deriving DecidableEq

/-- Pydantic validation of `RouterDecision.intent : IntentType`. -/
def RouterDecision.intentValid (d : RouterDecision) : Prop := d.intent ∈ intentValues

/-- `WordCard` of `schemas.py`. -/
structure WordCard where
  word : List Char
  translation : List Char
  example_sentence : List Char
  explanation : Option (List Char)
  part_of_speech : Option (List Char)
deriving DecidableEq

/-- `TutorAction` of `schemas.py` (the arbitrary `payload` dict is a key/value list). -/
structure TutorAction where
  type : List Char
  payload : List (List Char × List Char)
deriving DecidableEq

/-- `TutorMessage` of `schemas.py`. -/
structure TutorMessage where
  role : List Char
  content : List Char
  intent : List Char
  word_card : Option WordCard
  actions : List TutorAction
  delegated_agent : Option (List Char)
deriving DecidableEq

/-- Pydantic validation of a `TutorMessage` (`role : Literal["assistant"]`,
`intent : IntentType`). -/
def TutorMessage.valid (m : TutorMessage) : Prop :=
  m.role = str "assistant" ∧ m.intent ∈ intentValues

/-! ## The tutor router pipeline (`ai/run.py`, lines 262–406) -/

/-- The specialist instruction installed by the confirmation override
(`run.py`, lines 318–325). -/
def overrideInstruction : List Char :=
  str "The user confirmed they want to save the word. You MUST call the save_word_pair " ++
  str "tool with the source word and translation from the conversation (e.g. hello and hola). " ++
  str "Your response must be EXACTLY the tool" ++ apostr ++
  str "s return message and nothing else: " ++
  str "if the tool says " ++ apostr ++ str "Done! I" ++ apostr ++ str "ve added..." ++ apostr ++
  str " then output only that; " ++
  str "if the tool says " ++ apostr ++ str "This word pair ... is already in your deck" ++
  apostr ++ str " then output only that. " ++
  str "Do NOT repeat the translation, pronunciation, or any other explanation."

/-- The default refusal text used when the router supplies no refusal message
(`run.py`, lines 331–334). -/
def defaultRefusalMessage : List Char :=
  str "I" ++ apostr ++
  str "m your language tutor and can only help with language-related questions. " ++
  str "Try asking about translations, vocabulary, grammar, or cultural context!"

/-- The override block of `run_tutor_router` (`run.py`, lines 309–327): replace the
router's decision when the detector fires, the request is in-domain and the intent
is not already handled by a tool-bearing specialist. -/
def applyOverride (messages : List Msg) (d : RouterDecision) : RouterDecision :=
  match _detect_save_confirmation_and_override_intent messages with
  | none => d
  | some oi =>
    if oi ≠ [] ∧ d.allowed_domain = true ∧ d.intent ≠ str "translation" ∧
        d.intent ≠ str "new_vocabulary" then
      { d with intent := oi, specialist_instruction := overrideInstruction }
    else d

/-- Results of the three specialist crew invocations.  `Sum.inr` models a result
carrying a `.pydantic` structured output (for the translation crew, its `content`
field); `Sum.inl` models the `str(result)` fallback for a result without one. -/
structure SpecialistOracles where
  translation : Sum (List Char) (List Char)
  vocabulary : Sum (List Char) TutorMessage
  generic : Sum (List Char) TutorMessage

/-- Steps 2 and 3 of `run_tutor_router` (`run.py`, lines 329–406): refuse when the
request is off-domain, otherwise dispatch on the (possibly overridden) decision's
intent and post-process the specialist output. -/
def dispatchSpecialist (d : RouterDecision) (o : SpecialistOracles) : TutorMessage :=
  if d.allowed_domain ≠ true then
    let refusal :=
      match d.refusal_message with
      | some m => if m = [] then defaultRefusalMessage else m
      | none => defaultRefusalMessage
    ⟨str "assistant", refusal, str "off_topic", none, [], none⟩
  else
    let is_save_confirmation := str "MUST call the save_word_pair" <:+: d.specialist_instruction
    if d.intent = str "translation" then
      let content :=
        match o.translation with
        | Sum.inr c => c
        | Sum.inl s => s
      let content :=
        if is_save_confirmation ∧ content ≠ [] then _extract_save_tool_message_only content
        else _strip_offer_when_already_in_deck content
      ⟨str "assistant", content, str "translation", none, [], some (str "Translation Agent")⟩
    else if d.intent = str "new_vocabulary" then
      match o.vocabulary with
      | Sum.inr m =>
        let msg := { m with delegated_agent := some (str "Vocabulary Agent") }
        if is_save_confirmation then
          { msg with
            content :=
              if msg.content ≠ [] then _extract_save_tool_message_only msg.content
              else msg.content,
            word_card := none }
        else
          { msg with
            content :=
              if msg.content ≠ [] then _strip_offer_when_already_in_deck msg.content
              else msg.content }
      | Sum.inl s =>
        let content := if is_save_confirmation then _extract_save_tool_message_only s else s
        ⟨str "assistant", content, str "new_vocabulary", none, [], some (str "Vocabulary Agent")⟩
    else
      match o.generic with
      | Sum.inr m => { m with delegated_agent := some (str "Language Tutor") }
      | Sum.inl s => ⟨str "assistant", s, d.intent, none, [], some (str "Language Tutor")⟩

/-- `run_tutor_router` of `ai/run.py`, given the router crew's result
(`Sum.inr`: a structured `RouterDecision`; `Sum.inl`: the raw-string fallback of
lines 296–304) and the specialist crews' results. -/
def run_tutor_router (messages : List Msg) (router : Sum (List Char) RouterDecision)
    (o : SpecialistOracles) : TutorMessage :=
  match router with
  | Sum.inl s => ⟨str "assistant", s, str "off_topic", none, [], none⟩
  | Sum.inr d => dispatchSpecialist (applyOverride messages d) o

/-! ## The save tool (`ai/src/crews/tutor_router_crew/tools/save_word_pair.py`) -/

/-- One row of the `word_pairs` table (`row.get` can be absent, hence `Option`). -/
structure WPRow where
  row_user : Option (List Char)
  word1 : Option (List Char)
  word2 : Option (List Char)
deriving DecidableEq

namespace SaveWordPairTool

/-- `SaveWordPairTool._run`.  `table` is the `word_pairs` table; `selectErr` and
`insertErr` inject an exception raised by the respective Supabase call (the
`try`/`except` turns either into a failure message).  Returns the tool's message
together with the table after the call. -/
def _run (user_id : List Char) (table : List WPRow)
    (selectErr insertErr : Option (List Char))
    (source_word translated_word : List Char) : List Char × List WPRow :=
  let source := pyStrip source_word
  let translated := pyStrip translated_word
  if source = [] ∨ translated = [] then
    (str "Cannot save: both source_word and translated_word are required.", table)
  else
    match selectErr with
    | some e => (str "Failed to save the word pair: " ++ e, table)
    | none =>
      let existing := table.filter fun r => r.row_user = some user_id
      let sl := pyLower source
      let tl := pyLower translated
      if existing.any fun r =>
          pyLower (r.word1.getD []) = sl ∧ pyLower (r.word2.getD []) = tl then
        (str "This word pair (" ++ apostr ++ source ++ apostr ++ str " → " ++ apostr ++
          translated ++ apostr ++
          str ") is already in your deck. No duplicate was created.", table)
      else
        match insertErr with
        | some e => (str "Failed to save the word pair: " ++ e, table)
        | none =>
          (str "Done! I" ++ apostr ++ str "ve added " ++ apostr ++ source ++ apostr ++
            str " → " ++ apostr ++ translated ++ apostr ++
            str " to your flashcard deck. You" ++ apostr ++
            str "ll see it in your next practice session.",
            table ++ [⟨some user_id, some source, some translated⟩])

end SaveWordPairTool

/-! ## The voice quiz agent (`voice-agent/src/agent.py`) -/

/-- Characters counted as indentation by `textwrap.dedent` (space and TAB). -/
def isIndentChar (c : Char) : Bool := c == ' ' || c == Char.ofNat 9

/-- Split on newline characters, like `str.split("\n")` / the line structure used
by `textwrap.dedent`'s multiline regexes. -/
def splitLines : List Char → List (List Char)
  | [] => [[]]
  | c :: rest =>
    if c = nlc then [] :: splitLines rest
    else
      match splitLines rest with
      | l :: ls => (c :: l) :: ls
      | [] => [[c]]

/-- Rejoin lines with newline characters. -/
def joinLines : List (List Char) → List Char
  | [] => []
  | [l] => l
  | l :: ls => l ++ nlc :: joinLines ls

/-- Longest common prefix of two character lists. -/
def commonPrefix : List Char → List Char → List Char
  | c :: cs, d :: ds => if c = d then c :: commonPrefix cs ds else []
  | _, _ => []

/-- `textwrap.dedent`: blank whitespace-only lines, compute the longest common
indentation of the remaining lines, and strip it from every line. -/
def pyDedent (s : List Char) : List Char :=
  let lines := (splitLines s).map fun l => if l ≠ [] ∧ l.all isIndentChar then [] else l
  let indents := (lines.filter fun l => l ≠ []).map fun l => l.takeWhile isIndentChar
  match indents with
  | [] => joinLines lines
  | i0 :: rest =>
    let margin := rest.foldl commonPrefix i0
    if margin = [] then joinLines lines
    else joinLines (lines.map fun l => if margin.isPrefixOf l then l.drop margin.length else l)

/-- The raw (pre-`dedent`) `PROMPT_BASE` literal of `voice-agent/src/agent.py`. -/
def promptBaseRaw : List Char :=
  str "\n" ++
  str "    You are a friendly language tutor helping the user practice vocabulary using a\n" ++
  str "    spoken translation game.\n" ++
  str "\n" ++
  str "    The game works like this:\n" ++
  str "    - You say an English word and ask: \"How do you say " ++ apostr ++
    str "<english_word>" ++ apostr ++ str " in the target language?\"\n" ++
  str "    - The user answers in the target language.\n" ++
  str "    - You check their answer against the correct translation.\n" ++
  str "    - If the answer is correct, briefly confirm and repeat the English + target word.\n" ++
  str "    - If the answer is incorrect, gently correct them and say the right translation.\n" ++
  str "    - Then immediately move on to the next word.\n" ++
  str "\n" ++
  str "    After each answer, you MUST:\n" ++
  str "    - Briefly say whether the answer was correct or incorrect.\n" ++
  str "    - Say the correct translation.\n" ++
  str "    - Immediately ask for the NEXT word from your vocabulary list.\n" ++
  str "\n" ++
  str "    Keep each turn short (ideally under 15–20 seconds of speech) and very focused on\n" ++
  str "    a single word.\n" ++
  str "\n" ++
  str "    Important behavior:\n" ++
  str "    - Be encouraging and positive.\n" ++
  str "    - Do not over-explain grammar unless the user explicitly asks.\n" ++
  str "    - The game must CONTINUE WORD BY WORD until the user clearly says they want to stop\n" ++
  str "      (for example: \"stop\", \"I want to stop\", \"结束了\").\n" ++
  str "    - When the user asks to stop, briefly summarize how they did and end the session.\n" ++
  str "\n" ++
  str "    You have access to a list of (english_word -> target_translation) pairs for this\n" ++
  str "    session. Use ONLY those words for the quiz, one at a time, and cycle through them\n" ++
  str "    in order (or randomly) until the user asks you to stop.\n" ++
  str "    "

/-- `PROMPT_BASE` of `voice-agent/src/agent.py`. -/
def PROMPT_BASE : List Char := pyDedent promptBaseRaw

/-- One row returned by the `word_pairs` select of the voice agent. -/
structure DbRow where
  user_id : Option (List Char)
  word1 : Option (List Char)
  word2 : Option (List Char)
deriving DecidableEq

/-- `_load_public_word_pairs` of `voice-agent/src/agent.py` applied to the table
contents: keep rows with NULL `user_id` (at most `limit` of them), strip both
words and skip pairs where either strips to empty.  The result pairs are the
`{"english": w1, "target": w2}` dicts. -/
def _load_public_word_pairs (rows : List DbRow) (limit : Nat) : List (List Char × List Char) :=
  ((rows.filter fun r => r.user_id = none).take limit).filterMap fun r =>
    let w1 := pyStrip (r.word1.getD [])
    let w2 := pyStrip (r.word2.getD [])
    if w1 = [] ∨ w2 = [] then none else some (w1, w2)

/-- Python `", ".join`. -/
def joinWith (sep : List Char) : List (List Char) → List Char
  | [] => []
  | [x] => x
  | x :: xs => x ++ sep ++ joinWith sep xs

/-- The `preview_pairs` string of `VocabularyAssistant.__init__`: the first 20
pairs rendered as `english → target`, comma-separated. -/
def previewPairs (word_pairs : List (List Char × List Char)) : List Char :=
  joinWith (str ", ") ((word_pairs.take 20).map fun w => w.1 ++ str " → " ++ w.2)

/-- The 16-space indentation of the `vocab_hint` f-string literal. -/
def sp16 : List Char := str "                "

/-- The raw (pre-`dedent`) `vocab_hint` f-string for a non-empty vocabulary list. -/
def vocabHintRaw (word_pairs : List (List Char × List Char))
    (target_language_name : List Char) : List Char :=
  str "\n\n" ++
  sp16 ++ str "Vocabulary for this session (english → " ++ target_language_name ++
    str "):\n" ++
  sp16 ++ previewPairs word_pairs ++ str "\n\n" ++
  sp16 ++ str "Use only these pairs during the game. When you finish the list,\n" ++
  sp16 ++ str "you may loop back to the beginning.\n" ++
  sp16

/-- The raw (pre-`dedent`) `vocab_hint` f-string for an empty vocabulary list. -/
def fallbackHintRaw (target_language_name : List Char) : List Char :=
  str "\n\n" ++
  sp16 ++ str "No external vocabulary list is available. Instead, you should pick\n" ++
  sp16 ++ str "simple and useful English words and translate them into " ++
    target_language_name ++ str "\n" ++
  sp16 ++ str "yourself, still following the same quiz pattern.\n" ++
  sp16

/-- The `instructions` string built by `VocabularyAssistant.__init__`. -/
def vocabularyAssistantInstructions (word_pairs : List (List Char × List Char))
    (target_language_name : List Char) : List Char :=
  PROMPT_BASE ++
    (if word_pairs ≠ [] then pyDedent (vocabHintRaw word_pairs target_language_name)
     else pyDedent (fallbackHintRaw target_language_name))

/-! ## Lemmas about the Python string primitives -/

/-- Bool-valued substring test, equivalent to `· <:+: ·` (see `containsSub_iff`);
used to evaluate substring facts on large concrete strings. -/
def containsSub (pat : List Char) : List Char → Bool
  | [] => pat.isPrefixOf ([] : List Char)
  | c :: rest => pat.isPrefixOf (c :: rest) || containsSub pat rest

theorem containsSub_iff (pat s : List Char) : containsSub pat s = true ↔ pat <:+: s := by
  induction s with
  | nil => simp [containsSub]
  | cons c rest ih => simp [containsSub, ih, List.infix_cons_iff]

theorem infix_iff_exists_drop {l₁ l₂ : List Char} :
    l₁ <:+: l₂ ↔ ∃ j, l₁ <+: l₂.drop j := by
  constructor
  · rintro ⟨pre, post, rfl⟩
    exact ⟨pre.length, by simp [List.drop_left]⟩
  · rintro ⟨j, hj⟩
    exact List.infix_iff_prefix_suffix.mpr ⟨l₂.drop j, hj, List.drop_suffix j l₂⟩

theorem pyFind_sound {pat s : List Char} {i : Nat} (h : pyFind pat s = some i) :
    pat <+: s.drop i := by
  induction s generalizing i with
  | nil =>
    simp only [pyFind] at h
    split at h
    · cases h; simpa using ‹pat.isPrefixOf ([] : List Char) = true›
    · cases h
  | cons c rest ih =>
    simp only [pyFind] at h
    split at h
    · cases h; simpa using ‹pat.isPrefixOf (c :: rest) = true›
    · rcases Option.map_eq_some'.mp h with ⟨j, hj, rfl⟩
      simpa using ih hj

theorem pyFind_min {pat s : List Char} {i : Nat} (h : pyFind pat s = some i) :
    ∀ j, j < i → ¬ pat <+: s.drop j := by
  induction s generalizing i with
  | nil =>
    simp only [pyFind] at h
    split at h
    · cases h; omega
    · cases h
  | cons c rest ih =>
    simp only [pyFind] at h
    split at h
    · cases h; omega
    · rcases Option.map_eq_some'.mp h with ⟨k, hk, rfl⟩
      intro j hj
      match j with
      | 0 =>
        intro hp
        have : pat.isPrefixOf (c :: rest) = true := by simpa using hp
        simp_all
      | Nat.succ j' =>
        have := ih hk j' (by omega)
        simpa using this

theorem pyFind_none {pat s : List Char} (h : pyFind pat s = none) :
    ∀ j, ¬ pat <+: s.drop j := by
  induction s with
  | nil =>
    simp only [pyFind] at h
    split at h
    · cases h
    · intro j hp
      have : pat.isPrefixOf ([] : List Char) = true := by
        simpa using (List.prefix_nil.mp (by simpa using hp)) ▸ (by simp)
      simp_all
  | cons c rest ih =>
    simp only [pyFind] at h
    split at h
    · cases h
    · intro j
      match j with
      | 0 =>
        intro hp
        have : pat.isPrefixOf (c :: rest) = true := by simpa using hp
        simp_all
      | Nat.succ j' =>
        have := ih (by simpa using h) j'
        simpa using this

theorem pyFind_exact {pat s : List Char} {i : Nat} (hp : pat <+: s.drop i)
    (hmin : ∀ j, j < i → ¬ pat <+: s.drop j) : pyFind pat s = some i := by
  induction s generalizing i with
  | nil =>
    have hi : i = 0 := by
      by_contra hne
      exact hmin 0 (by omega) (by simpa using hp)
    subst hi
    simp only [pyFind]
    split
    · rfl
    · exact absurd (by simpa using hp) (by simp_all)
  | cons c rest ih =>
    match i with
    | 0 =>
      simp only [pyFind]
      split
      · rfl
      · exact absurd (by simpa using hp) (by simp_all)
    | Nat.succ k =>
      have h0 : ¬ pat <+: (c :: rest) := by
        have := hmin 0 (by omega)
        simpa using this
      simp only [pyFind]
      rw [if_neg (by simpa using h0)]
      have : pyFind pat rest = some k := by
        apply ih
        · simpa using hp
        · intro j hj
          have := hmin (j + 1) (by omega)
          simpa using this
      simp [this]

theorem pyFind_of_prefix {pat s : List Char} (hp : pat <+: s) : pyFind pat s = some 0 :=
  pyFind_exact (by simpa using hp) (by omega)

theorem pyFind_none_iff {pat s : List Char} : pyFind pat s = none ↔ ¬ pat <:+: s := by
  constructor
  · intro h hinf
    rcases infix_iff_exists_drop.mp hinf with ⟨j, hj⟩
    exact pyFind_none h j hj
  · intro h
    cases hf : pyFind pat s with
    | none => rfl
    | some i => exact absurd (infix_iff_exists_drop.mpr ⟨i, pyFind_sound hf⟩) h

theorem pyFind_some_of_occurs {pat s : List Char} (h : pat <:+: s) :
    ∃ i, pyFind pat s = some i := by
  cases hf : pyFind pat s with
  | none => exact absurd h (pyFind_none_iff.mp hf)
  | some i => exact ⟨i, rfl⟩

theorem pyFind_le_length {pat s : List Char} {i : Nat} (h : pyFind pat s = some i)
    (hne : pat ≠ []) : i + pat.length ≤ s.length := by
  have hp := pyFind_sound h
  have hlen := hp.length_le
  simp only [List.length_drop] at hlen
  have hi : i ≤ s.length := by
    by_contra hgt
    have : s.drop i = [] := List.drop_eq_nil_of_le (by omega)
    rw [this] at hp
    exact hne (List.prefix_nil.mp hp)
  omega

theorem lstripWs_suffix (s : List Char) : lstripWs s <:+ s := List.dropWhile_suffix isPyWs

theorem rstripWs_pre_self (s : List Char) : rstripWs s <+: s := by
  have h : s.reverse.dropWhile isPyWs <:+ s.reverse := List.dropWhile_suffix isPyWs
  have h2 := List.reverse_prefix.mpr h
  simpa [rstripWs] using h2

theorem pyStrip_infix_self (s : List Char) : pyStrip s <:+: s :=
  List.infix_iff_prefix_suffix.mpr ⟨lstripWs s, rstripWs_pre_self _, lstripWs_suffix _⟩

theorem pyStrip_length_le (s : List Char) : (pyStrip s).length ≤ s.length :=
  (pyStrip_infix_self s).length_le

theorem lstripWs_cons_of_not {c : Char} (t : List Char) (h : isPyWs c = false) :
    lstripWs (c :: t) = c :: t := by
  simp [lstripWs, List.dropWhile_cons, h]

theorem dropWhile_ws_idem (s : List Char) :
    (s.dropWhile isPyWs).dropWhile isPyWs = s.dropWhile isPyWs := by
  cases h : s.dropWhile isPyWs with
  | nil => simp
  | cons c t =>
    have hc : isPyWs c = false := by
      have hne : s.dropWhile isPyWs ≠ [] := by simp [h]
      have hh := List.head_dropWhile_not isPyWs s hne
      simp only [h, List.head_cons] at hh
      exact hh
    simp [List.dropWhile_cons, hc]

theorem lstripWs_idem (s : List Char) : lstripWs (lstripWs s) = lstripWs s :=
  dropWhile_ws_idem s

theorem rstripWs_idem (s : List Char) : rstripWs (rstripWs s) = rstripWs s := by
  unfold rstripWs
  rw [List.reverse_reverse, dropWhile_ws_idem]

theorem rstripWs_append_last (a b : List Char) (c : Char) (hc : isPyWs c = false) :
    rstripWs ((a ++ [c]) ++ b) = (a ++ [c]) ++ rstripWs b := by
  unfold rstripWs
  rw [List.reverse_append, List.dropWhile_append]
  by_cases hb : (b.reverse.dropWhile isPyWs).isEmpty
  · have hbe : b.reverse.dropWhile isPyWs = [] := List.isEmpty_iff.mp hb
    rw [if_pos hb, hbe]
    simp [List.dropWhile_cons, hc]
  · rw [if_neg hb]
    simp

theorem rstripWs_eq_self {s : List Char} (hs : s ≠ [])
    (hlast : isPyWs (s.getLast hs) = false) : rstripWs s = s := by
  have hdecomp := List.dropLast_concat_getLast hs
  calc rstripWs s = rstripWs (s.dropLast ++ [s.getLast hs] ++ []) := by
        rw [List.append_nil, hdecomp]
    _ = (s.dropLast ++ [s.getLast hs]) ++ rstripWs [] := rstripWs_append_last _ _ _ hlast
    _ = s := by simp [rstripWs, hdecomp]

theorem pyStrip_eq_self {s : List Char} (hs : s ≠ [])
    (hhead : isPyWs (s.head hs) = false) (hlast : isPyWs (s.getLast hs) = false) :
    pyStrip s = s := by
  have h1 : lstripWs s = s := by
    obtain ⟨c, t, rfl⟩ := List.exists_cons_of_ne_nil hs
    simpa using lstripWs_cons_of_not t (by simpa using hhead)
  rw [pyStrip, h1, rstripWs_eq_self hs hlast]

theorem pyStrip_idem (s : List Char) : pyStrip (pyStrip s) = pyStrip s := by
  unfold pyStrip
  rw [show lstripWs s = s.dropWhile isPyWs from rfl] at *
  cases hr : rstripWs (s.dropWhile isPyWs) with
  | nil => simp [lstripWs, rstripWs]
  | cons c r' =>
    obtain ⟨t, ht⟩ := rstripWs_pre_self (s.dropWhile isPyWs)
    rw [hr] at ht
    have hls : s.dropWhile isPyWs = c :: (r' ++ t) := by
      rw [← ht]; simp
    have hc : isPyWs c = false := by
      have hne : s.dropWhile isPyWs ≠ [] := by rw [hls]; simp
      have hh := List.head_dropWhile_not isPyWs s hne
      simp only [hls, List.head_cons] at hh
      exact hh
    calc rstripWs (lstripWs (c :: r'))
        = rstripWs (c :: r') := by rw [lstripWs_cons_of_not r' hc]
      _ = rstripWs (rstripWs (s.dropWhile isPyWs)) := by rw [hr]
      _ = rstripWs (s.dropWhile isPyWs) := rstripWs_idem _
      _ = c :: r' := hr

theorem pyReplaceFuel_length_le (pat rep : List Char) (hrep : rep.length ≤ pat.length) :
    ∀ (n : Nat) (s : List Char), (pyReplaceFuel pat rep n s).length ≤ s.length := by
  intro n
  induction n with
  | zero => intro s; cases s <;> simp [pyReplaceFuel]
  | succ n ih =>
    intro s
    cases s with
    | nil => simp [pyReplaceFuel]
    | cons c rest =>
      simp only [pyReplaceFuel]
      split
      · next hpre =>
        have hple : pat.length ≤ rest.length + 1 := by
          have hp : pat <+: (c :: rest) := by simpa using hpre
          simpa using hp.length_le
        have h2 := ih ((c :: rest).drop pat.length)
        rw [List.length_append]
        rw [List.length_drop] at h2
        simp only [List.length_cons] at *
        omega
      · next hpre =>
        have h2 := ih rest
        simp only [List.length_cons]
        omega

theorem pyReplace_length_le (s pat rep : List Char) (hrep : rep.length ≤ pat.length)
    (hpat : pat ≠ []) : (pyReplace s pat rep).length ≤ s.length := by
  unfold pyReplace
  rw [if_neg hpat]
  exact pyReplaceFuel_length_le pat rep hrep s.length s

theorem pyReplaceFuel_length_lt (pat rep : List Char) (hrep : rep.length < pat.length) :
    ∀ (n : Nat) (s : List Char), s.length ≤ n → pat <:+: s →
      (pyReplaceFuel pat rep n s).length < s.length := by
  intro n
  induction n with
  | zero =>
    intro s hn hinf
    have hs : s = [] := by cases s <;> simp_all
    subst hs
    have hp : pat = [] := List.eq_nil_of_infix_nil hinf
    rw [hp] at hrep
    simp at hrep
  | succ n ih =>
    intro s hn hinf
    cases s with
    | nil =>
      have hp : pat = [] := List.eq_nil_of_infix_nil hinf
      rw [hp] at hrep
      simp at hrep
    | cons c rest =>
      simp only [pyReplaceFuel]
      split
      · next hpre =>
        have hp : pat <+: (c :: rest) := by simpa using hpre
        have hple : pat.length ≤ rest.length + 1 := by simpa using hp.length_le
        have h2 := pyReplaceFuel_length_le pat rep (by omega) n ((c :: rest).drop pat.length)
        rw [List.length_append]
        rw [List.length_drop] at h2
        simp only [List.length_cons] at *
        omega
      · next hpre =>
        have hrest : pat <:+: rest := by
          rcases List.infix_cons_iff.mp hinf with h | h
          · exact absurd (by simpa using h) (by simpa using hpre)
          · exact h
        have h2 := ih rest (by simp only [List.length_cons] at hn; omega) hrest
        simp only [List.length_cons]
        omega

theorem pyReplace_length_lt (s pat rep : List Char) (hrep : rep.length < pat.length)
    (hpat : pat ≠ []) (hinf : pat <:+: s) : (pyReplace s pat rep).length < s.length := by
  unfold pyReplace
  rw [if_neg hpat]
  exact pyReplaceFuel_length_lt pat rep hrep s.length s (Nat.le_refl _) hinf

theorem pyReplaceFuel_congr (pat rep : List Char) (hpat : pat ≠ []) :
    ∀ (n m : Nat) (s : List Char), s.length ≤ n → s.length ≤ m →
      pyReplaceFuel pat rep n s = pyReplaceFuel pat rep m s := by
  intro n
  induction n with
  | zero =>
    intro m s hn _
    have hs : s = [] := by cases s <;> simp_all
    subst hs
    cases m <;> simp [pyReplaceFuel]
  | succ n ih =>
    intro m s hn hm
    cases s with
    | nil => cases m <;> simp [pyReplaceFuel]
    | cons c rest =>
      cases m with
      | zero => simp at hm
      | succ m' =>
        simp only [pyReplaceFuel]
        split
        · next hpre =>
          have hp : pat <+: (c :: rest) := by simpa using hpre
          have hple : pat.length ≤ rest.length + 1 := by simpa using hp.length_le
          have hpat1 : 1 ≤ pat.length := by
            cases pat with
            | nil => exact absurd rfl hpat
            | cons _ _ => simp
          congr 1
          apply ih m' _
          · rw [List.length_drop]; simp only [List.length_cons] at *; omega
          · rw [List.length_drop]; simp only [List.length_cons] at *; omega
        · next hpre =>
          congr 1
          apply ih m' rest
          · simp only [List.length_cons] at hn; omega
          · simp only [List.length_cons] at hm; omega

theorem collapseSpacesFuel_length_le :
    ∀ (n : Nat) (s : List Char), (collapseSpacesFuel n s).length ≤ s.length := by
  intro n
  induction n with
  | zero => intro s; simp [collapseSpacesFuel]
  | succ n ih =>
    intro s
    simp only [collapseSpacesFuel]
    split
    · exact Nat.le_trans (ih _)
        (pyReplace_length_le s twoSpaces [' '] (by simp [twoSpaces]) (by simp [twoSpaces]))
    · exact Nat.le_refl _

theorem collapseSpaces_length_le (s : List Char) : (collapseSpaces s).length ≤ s.length :=
  collapseSpacesFuel_length_le s.length s

theorem collapseSpacesFuel_no_twoSpaces :
    ∀ (n : Nat) (s : List Char), s.length ≤ n → ¬ twoSpaces <:+: collapseSpacesFuel n s := by
  intro n
  induction n with
  | zero =>
    intro s hn hinf
    have hs : s = [] := by cases s <;> simp_all
    subst hs
    simp only [collapseSpacesFuel] at hinf
    have : twoSpaces = [] := List.eq_nil_of_infix_nil hinf
    simp [twoSpaces] at this
  | succ n ih =>
    intro s hn
    simp only [collapseSpacesFuel]
    split
    · next h =>
      apply ih
      have := pyReplace_length_lt s twoSpaces [' '] (by simp [twoSpaces])
        (by simp [twoSpaces]) h
      omega
    · next h => exact h

/-- The whitespace-collapsing loop really terminates with no double space left,
so fuel `s.length` is faithful to the Python `while` loop. -/
theorem collapseSpaces_no_twoSpaces (s : List Char) : ¬ twoSpaces <:+: collapseSpaces s :=
  collapseSpacesFuel_no_twoSpaces s.length s (Nat.le_refl _)

theorem all_ws_of_pyStrip_eq_nil {s : List Char} (h : pyStrip s = []) :
    ∀ c ∈ s, isPyWs c = true := by
  unfold pyStrip rstripWs lstripWs at h
  have h1 : (s.dropWhile isPyWs).reverse.dropWhile isPyWs = [] := by
    have h0 := congrArg List.reverse h
    simpa using h0
  have h2 := List.dropWhile_eq_nil_iff.mp h1
  have h3 : ∀ c ∈ s.dropWhile isPyWs, isPyWs c = true := by
    intro c hc
    exact h2 c (by simpa using hc)
  intro c hc
  rw [← List.takeWhile_append_dropWhile (p := isPyWs) (l := s)] at hc
  rcases List.mem_append.mp hc with h4 | h4
  · exact List.mem_takeWhile_imp h4
  · exact h3 c h4

theorem pyStrip_ne_nil_of_mem {s : List Char} {c : Char} (hc : c ∈ s)
    (hw : isPyWs c = false) : pyStrip s ≠ [] := by
  intro h
  have h1 := all_ws_of_pyStrip_eq_nil h c hc
  rw [hw] at h1
  cases h1

/-- The detector returns `none`, `"translation"`, or `"new_vocabulary"` — shared
range fact about `_detect_save_confirmation_and_override_intent`. -/
theorem detectResult_cases (messages : List Msg) :
    _detect_save_confirmation_and_override_intent messages = none ∨
      _detect_save_confirmation_and_override_intent messages = some (str "translation") ∨
      _detect_save_confirmation_and_override_intent messages = some (str "new_vocabulary") := by
  unfold _detect_save_confirmation_and_override_intent
  repeat' split
  all_goals simp

theorem applyOverride_allowed (messages : List Msg) (d : RouterDecision) :
    (applyOverride messages d).allowed_domain = d.allowed_domain ∧
    (applyOverride messages d).refusal_message = d.refusal_message := by
  unfold applyOverride
  cases _detect_save_confirmation_and_override_intent messages with
  | none => exact ⟨rfl, rfl⟩
  | some oi =>
    by_cases hc : oi ≠ [] ∧ d.allowed_domain = true ∧ d.intent ≠ str "translation" ∧
        d.intent ≠ str "new_vocabulary"
    · dsimp only
      rw [if_pos hc]
      exact ⟨rfl, rfl⟩
    · dsimp only
      rw [if_neg hc]
      exact ⟨rfl, rfl⟩

/-- **C2**: in `run_tutor_router` the router's decision is replaced by the override
only when the detector fires, `allowed_domain` is true and the intent is neither
`"translation"` nor `"new_vocabulary"`; the override changes exactly `intent` and
`specialist_instruction`, preserving `allowed_domain` and `refusal_message`. -/
theorem c2_override_application (messages : List Msg) (d : RouterDecision) :
    (applyOverride messages d ≠ d →
      (∃ oi, _detect_save_confirmation_and_override_intent messages = some oi) ∧
        d.allowed_domain = true ∧ d.intent ≠ str "translation" ∧
        d.intent ≠ str "new_vocabulary") ∧
    (applyOverride messages d).allowed_domain = d.allowed_domain ∧
    (applyOverride messages d).refusal_message = d.refusal_message ∧
    (∀ oi, _detect_save_confirmation_and_override_intent messages = some oi →
      d.allowed_domain = true → d.intent ≠ str "translation" →
      d.intent ≠ str "new_vocabulary" →
      applyOverride messages d =
        { d with intent := oi, specialist_instruction := overrideInstruction }) ∧
    (∀ o : SpecialistOracles, run_tutor_router messages (Sum.inr d) o =
      dispatchSpecialist (applyOverride messages d) o) := by
  refine ⟨?_, (applyOverride_allowed messages d).1, (applyOverride_allowed messages d).2,
    ?_, fun o => rfl⟩
  · intro hne
    cases hdet : _detect_save_confirmation_and_override_intent messages with
    | none =>
      simp only [applyOverride, hdet] at hne
      exact absurd rfl hne
    | some oi =>
      simp only [applyOverride, hdet] at hne
      by_cases hc : oi ≠ [] ∧ d.allowed_domain = true ∧ d.intent ≠ str "translation" ∧
          d.intent ≠ str "new_vocabulary"
      · exact ⟨⟨oi, rfl⟩, hc.2.1, hc.2.2.1, hc.2.2.2⟩
      · rw [if_neg hc] at hne
        exact absurd rfl hne
  · intro oi hdet h1 h2 h3
    have hne : oi ≠ [] := by
      rcases detectResult_cases messages with h | h | h <;> rw [hdet] at h
      · cases h
      · cases Option.some.inj h
        decide
      · cases Option.some.inj h
        decide
    simp only [applyOverride, hdet]
    rw [if_pos ⟨hne, h1, h2, h3⟩]

/-- Witness for C2 at a concrete conversation and decision. -/
theorem c2_override_application_witness :
    applyOverride
      [⟨str "assistant", str "Would you like me to save this word to your flashcard deck?"⟩,
        ⟨str "user", str "Yes!"⟩]
      ⟨str "grammar_explanation", true, str "explain", none⟩ =
      ⟨str "translation", true, overrideInstruction, none⟩ :=
  (c2_override_application
      [⟨str "assistant", str "Would you like me to save this word to your flashcard deck?"⟩,
        ⟨str "user", str "Yes!"⟩]
      ⟨str "grammar_explanation", true, str "explain", none⟩).2.2.2.1
    (str "translation") (by decide) rfl (by decide) (by decide)

/-- **C6**: with `allowed_domain` false, `run_tutor_router` refuses without invoking
any specialist: the reply has role `assistant`, intent `off_topic`, no word card,
no actions, no delegated agent, and content the router's refusal message when
non-empty, otherwise the fixed default refusal text. -/
theorem c6_offtopic_refusal (d : RouterDecision) (o o' : SpecialistOracles)
    (hd : d.allowed_domain = false) :
    dispatchSpecialist d o = dispatchSpecialist d o' ∧
    (dispatchSpecialist d o).role = str "assistant" ∧
    (dispatchSpecialist d o).intent = str "off_topic" ∧
    (dispatchSpecialist d o).word_card = none ∧
    (dispatchSpecialist d o).actions = [] ∧
    (dispatchSpecialist d o).delegated_agent = none ∧
    (∀ m, d.refusal_message = some m → m ≠ [] → (dispatchSpecialist d o).content = m) ∧
    ((d.refusal_message = none ∨ d.refusal_message = some []) →
      (dispatchSpecialist d o).content = defaultRefusalMessage) := by
  have hna : d.allowed_domain ≠ true := by simp [hd]
  refine ⟨?_, ?_, ?_, ?_, ?_, ?_, ?_, ?_⟩
  · simp only [dispatchSpecialist, if_pos hna]
  · simp [dispatchSpecialist, hd]
  · simp [dispatchSpecialist, hd]
  · simp [dispatchSpecialist, hd]
  · simp [dispatchSpecialist, hd]
  · simp [dispatchSpecialist, hd]
  · intro m hm hmne
    simp [dispatchSpecialist, hd, hm, hmne]
  · rintro (h | h) <;> simp [dispatchSpecialist, hd, h]

/-- Witness for C6 at a concrete off-topic decision. -/
theorem c6_offtopic_refusal_witness :
    dispatchSpecialist ⟨str "off_topic", false, str "", some (str "No can do")⟩
      ⟨Sum.inl [], Sum.inl [], Sum.inl []⟩ =
      ⟨str "assistant", str "No can do", str "off_topic", none, [], none⟩ := by
  have h := c6_offtopic_refusal ⟨str "off_topic", false, str "", some (str "No can do")⟩
    ⟨Sum.inl [], Sum.inl [], Sum.inl []⟩ ⟨Sum.inl [], Sum.inl [], Sum.inl []⟩ rfl
  have hc := h.2.2.2.2.2.2.1 (str "No can do") rfl (by decide)
  cases hdo : dispatchSpecialist ⟨str "off_topic", false, str "", some (str "No can do")⟩
      ⟨Sum.inl [], Sum.inl [], Sum.inl []⟩
  simp_all

/-- **C5**: with `allowed_domain` true the dispatcher takes exactly one of three
branches keyed on the decision's intent — `"translation"`, `"new_vocabulary"`, or
any other in-domain intent — and the reply always has role `assistant` and a
non-null `delegated_agent` equal to `"Translation Agent"`, `"Vocabulary Agent"`
or `"Language Tutor"` respectively; the translation branch moreover always
returns `word_card` null and empty `actions`. -/
theorem c5_specialist_dispatch (d : RouterDecision) (o : SpecialistOracles)
    (hd : d.allowed_domain = true)
    (hv : ∀ m, o.vocabulary = Sum.inr m → m.role = str "assistant")
    (hg : ∀ m, o.generic = Sum.inr m → m.role = str "assistant") :
    (dispatchSpecialist d o).role = str "assistant" ∧
    ((dispatchSpecialist d o).delegated_agent = some (str "Translation Agent") ∨
      (dispatchSpecialist d o).delegated_agent = some (str "Vocabulary Agent") ∨
      (dispatchSpecialist d o).delegated_agent = some (str "Language Tutor")) ∧
    (d.intent = str "translation" →
      (dispatchSpecialist d o).delegated_agent = some (str "Translation Agent") ∧
      (dispatchSpecialist d o).intent = str "translation" ∧
      (dispatchSpecialist d o).word_card = none ∧
      (dispatchSpecialist d o).actions = []) ∧
    (d.intent = str "new_vocabulary" →
      (dispatchSpecialist d o).delegated_agent = some (str "Vocabulary Agent")) ∧
    (d.intent ≠ str "translation" → d.intent ≠ str "new_vocabulary" →
      (dispatchSpecialist d o).delegated_agent = some (str "Language Tutor")) := by
  have hne : str "translation" ≠ str "new_vocabulary" := by decide
  have hnd : ¬ (d.allowed_domain ≠ true) := by simp [hd]
  by_cases ht : d.intent = str "translation"
  · refine ⟨?_, Or.inl ?_, fun _ => ⟨?_, ?_, ?_, ?_⟩,
      fun h => absurd (ht.symm.trans h) hne, fun h1 _ => absurd ht h1⟩ <;>
      · simp only [dispatchSpecialist]
        rw [if_neg hnd, if_pos ht]
  · by_cases hn : d.intent = str "new_vocabulary"
    · have hkey : (dispatchSpecialist d o).role = str "assistant" ∧
          (dispatchSpecialist d o).delegated_agent = some (str "Vocabulary Agent") := by
        cases hvv : o.vocabulary with
        | inl s =>
          constructor <;>
            · simp only [dispatchSpecialist, hvv]
              rw [if_neg hnd, if_neg ht, if_pos hn]
        | inr m =>
          constructor <;>
            · simp only [dispatchSpecialist, hvv]
              rw [if_neg hnd, if_neg ht, if_pos hn]
              split <;> simp [hv m hvv]
      exact ⟨hkey.1, Or.inr (Or.inl hkey.2), fun h => absurd h ht, fun _ => hkey.2,
        fun _ h2 => absurd hn h2⟩
    · have hkey : (dispatchSpecialist d o).role = str "assistant" ∧
          (dispatchSpecialist d o).delegated_agent = some (str "Language Tutor") := by
        cases hgg : o.generic with
        | inl s =>
          constructor <;>
            · simp only [dispatchSpecialist, hgg]
              rw [if_neg hnd, if_neg ht, if_neg hn]
        | inr m =>
          constructor <;>
            · simp only [dispatchSpecialist, hgg]
              rw [if_neg hnd, if_neg ht, if_neg hn]
              try simp [hg m hgg]
      exact ⟨hkey.1, Or.inr (Or.inr hkey.2), fun h => absurd h ht, fun h => absurd h hn,
        fun _ _ => hkey.2⟩

/-- Witness for C5 at a concrete in-domain decision and oracle results. -/
theorem c5_specialist_dispatch_witness :
    (dispatchSpecialist ⟨str "grammar_explanation", true, str "explain", none⟩
        ⟨Sum.inl [], Sum.inl [],
          Sum.inr ⟨str "assistant", str "Here", str "grammar_explanation", none, [], none⟩⟩).role
        = str "assistant" ∧
    (dispatchSpecialist ⟨str "grammar_explanation", true, str "explain", none⟩
        ⟨Sum.inl [], Sum.inl [],
          Sum.inr ⟨str "assistant", str "Here", str "grammar_explanation", none, [], none⟩⟩).delegated_agent
        = some (str "Language Tutor") := by
  have h := c5_specialist_dispatch ⟨str "grammar_explanation", true, str "explain", none⟩
    ⟨Sum.inl [], Sum.inl [],
      Sum.inr ⟨str "assistant", str "Here", str "grammar_explanation", none, [], none⟩⟩
    rfl (by intro m hm; cases hm) (by intro m hm; cases hm; rfl)
  exact ⟨h.1, h.2.2.2.2 (by decide) (by decide)⟩

theorem applyOverride_intent_mem (messages : List Msg) (d : RouterDecision)
    (hd : d.intent ∈ intentValues) :
    (applyOverride messages d).intent ∈ intentValues := by
  rcases detectResult_cases messages with h | h | h <;> simp only [applyOverride, h]
  · exact hd
  · split
    · change str "translation" ∈ intentValues
      decide
    · exact hd
  · split
    · change str "new_vocabulary" ∈ intentValues
      decide
    · exact hd

theorem dispatch_intent_mem (d : RouterDecision) (o : SpecialistOracles)
    (hd : d.intent ∈ intentValues)
    (hv : ∀ m, o.vocabulary = Sum.inr m → m.intent ∈ intentValues)
    (hg : ∀ m, o.generic = Sum.inr m → m.intent ∈ intentValues) :
    (dispatchSpecialist d o).intent ∈ intentValues := by
  by_cases ha : d.allowed_domain = true
  · have hnd : ¬ (d.allowed_domain ≠ true) := by simp [ha]
    by_cases ht : d.intent = str "translation"
    · simp only [dispatchSpecialist]
      rw [if_neg hnd, if_pos ht]
      change str "translation" ∈ intentValues
      decide
    · by_cases hn : d.intent = str "new_vocabulary"
      · cases hvv : o.vocabulary with
        | inl s =>
          simp only [dispatchSpecialist, hvv]
          rw [if_neg hnd, if_neg ht, if_pos hn]
          change str "new_vocabulary" ∈ intentValues
          decide
        | inr m =>
          simp only [dispatchSpecialist, hvv]
          rw [if_neg hnd, if_neg ht, if_pos hn]
          split <;> simpa using hv m hvv
      · cases hgg : o.generic with
        | inl s =>
          simp only [dispatchSpecialist, hgg]
          rw [if_neg hnd, if_neg ht, if_neg hn]
          simpa using hd
        | inr m =>
          simp only [dispatchSpecialist, hgg]
          rw [if_neg hnd, if_neg ht, if_neg hn]
          simpa using hg m hgg
  · have hnd : d.allowed_domain ≠ true := ha
    simp only [dispatchSpecialist]
    rw [if_pos hnd]
    change str "off_topic" ∈ intentValues
    decide

/-- **C7**: the intent classification has exactly the seven `IntentType` values; a
pydantic-validated `RouterDecision` carries one of them, and every `TutorMessage`
produced by `run_tutor_router` (from validated router and specialist outputs)
carries one of them. -/
theorem c7_seven_intents (messages : List Msg) (router : Sum (List Char) RouterDecision)
    (o : SpecialistOracles)
    (hr : ∀ d, router = Sum.inr d → d.intent ∈ intentValues)
    (hv : ∀ m, o.vocabulary = Sum.inr m → m.intent ∈ intentValues)
    (hg : ∀ m, o.generic = Sum.inr m → m.intent ∈ intentValues) :
    intentValues.length = 7 ∧ intentValues.Nodup ∧
    (∀ d : RouterDecision, d.intentValid → d.intent ∈ intentValues) ∧
    (run_tutor_router messages router o).intent ∈ intentValues := by
  refine ⟨by decide, by decide, fun d h => h, ?_⟩
  cases router with
  | inl s =>
    simp [run_tutor_router]
    decide
  | inr d =>
    exact dispatch_intent_mem _ o (applyOverride_intent_mem messages d (hr d rfl)) hv hg

/-- Witness for C7 at a concrete pipeline run. -/
theorem c7_seven_intents_witness :
    (run_tutor_router [⟨str "user", str "hi"⟩]
        (Sum.inr ⟨str "small_talk_language_related", true, str "chat", none⟩)
        ⟨Sum.inl [], Sum.inl [], Sum.inl (str "Hello!")⟩).intent ∈ intentValues :=
  (c7_seven_intents [⟨str "user", str "hi"⟩]
      (Sum.inr ⟨str "small_talk_language_related", true, str "chat", none⟩)
      ⟨Sum.inl [], Sum.inl [], Sum.inl (str "Hello!")⟩
      (by rintro d ⟨rfl⟩; decide)
      (by intro m hm; cases hm) (by intro m hm; cases hm)).2.2.2

/-- The duplicate test of `SaveWordPairTool._run` as a proposition: some row of the
user's deck matches the stripped pair case-insensitively. -/
def hasDuplicate (user_id : List Char) (table : List WPRow) (source translated : List Char) :
    Prop :=
  ∃ row ∈ table.filter fun r => r.row_user = some user_id,
    pyLower (row.word1.getD []) = pyLower source ∧ pyLower (row.word2.getD []) = pyLower translated

instance (u : List Char) (t : List WPRow) (s c : List Char) :
    Decidable (hasDuplicate u t s c) := by
  unfold hasDuplicate
  infer_instance

/-- **C9**: `SaveWordPairTool._run` always returns a message (exceptions from either
database call are turned into a failure message, never propagated); with a blank
word or an existing case-insensitive duplicate no row is inserted and the message
reports the problem; a row is appended exactly when neither condition holds and no
database call fails. -/
theorem c9_save_word_pair (user_id : List Char) (table : List WPRow)
    (selectErr insertErr : Option (List Char)) (sw tw : List Char) :
    ((pyStrip sw = [] ∨ pyStrip tw = []) →
      (SaveWordPairTool._run user_id table selectErr insertErr sw tw).2 = table ∧
      (SaveWordPairTool._run user_id table selectErr insertErr sw tw).1 =
        str "Cannot save: both source_word and translated_word are required.") ∧
    (pyStrip sw ≠ [] → pyStrip tw ≠ [] → selectErr = none →
      hasDuplicate user_id table (pyStrip sw) (pyStrip tw) →
      (SaveWordPairTool._run user_id table selectErr insertErr sw tw).2 = table ∧
      (SaveWordPairTool._run user_id table selectErr insertErr sw tw).1 =
        str "This word pair (" ++ apostr ++ pyStrip sw ++ apostr ++ str " → " ++ apostr ++
          pyStrip tw ++ apostr ++ str ") is already in your deck. No duplicate was created.") ∧
    ((SaveWordPairTool._run user_id table selectErr insertErr sw tw).2 ≠ table →
      pyStrip sw ≠ [] ∧ pyStrip tw ≠ [] ∧ selectErr = none ∧ insertErr = none ∧
      ¬ hasDuplicate user_id table (pyStrip sw) (pyStrip tw) ∧
      (SaveWordPairTool._run user_id table selectErr insertErr sw tw).2 =
        table ++ [⟨some user_id, some (pyStrip sw), some (pyStrip tw)⟩]) ∧
    ((SaveWordPairTool._run user_id table selectErr insertErr sw tw).2 = table ∨
      (SaveWordPairTool._run user_id table selectErr insertErr sw tw).2 =
        table ++ [⟨some user_id, some (pyStrip sw), some (pyStrip tw)⟩]) := by
  by_cases hblank : pyStrip sw = [] ∨ pyStrip tw = []
  · constructor
    · intro _
      constructor <;> simp [SaveWordPairTool._run, if_pos hblank]
    · refine ⟨?_, ?_, ?_⟩
      · rcases hblank with h | h
        · intro h1 _ _ _; exact absurd h h1
        · intro _ h2 _ _; exact absurd h h2
      · intro hx
        exact absurd (by simp [SaveWordPairTool._run, if_pos hblank]) hx
      · exact Or.inl (by simp [SaveWordPairTool._run, if_pos hblank])
  · refine ⟨fun h => absurd h hblank, ?_, ?_, ?_⟩
    · intro _ _ hsel hdup
      subst hsel
      have hany : (List.filter (fun r => decide (r.row_user = some user_id)) table).any
          (fun r => decide (pyLower (r.word1.getD []) = pyLower (pyStrip sw)) &&
            decide (pyLower (r.word2.getD []) = pyLower (pyStrip tw))) = true := by
        rcases hdup with ⟨row, hmem, h1, h2⟩
        refine List.any_eq_true.mpr ⟨row, ?_, ?_⟩
        · simpa using hmem
        · simp [h1, h2]
      constructor <;>
        simp [SaveWordPairTool._run, if_neg hblank, hany]
    · intro hx
      cases hsel : selectErr with
      | some e =>
        exact absurd (by simp [SaveWordPairTool._run, if_neg hblank, hsel]) hx
      | none =>
        by_cases hdup : hasDuplicate user_id table (pyStrip sw) (pyStrip tw)
        · have hany : (List.filter (fun r => decide (r.row_user = some user_id)) table).any
              (fun r => decide (pyLower (r.word1.getD []) = pyLower (pyStrip sw)) &&
                decide (pyLower (r.word2.getD []) = pyLower (pyStrip tw))) = true := by
            rcases hdup with ⟨row, hmem, h1, h2⟩
            refine List.any_eq_true.mpr ⟨row, ?_, ?_⟩
            · simpa using hmem
            · simp [h1, h2]
          exact absurd (by simp [SaveWordPairTool._run, if_neg hblank, hsel, hany]) hx
        · have hany : (List.filter (fun r => decide (r.row_user = some user_id)) table).any
              (fun r => decide (pyLower (r.word1.getD []) = pyLower (pyStrip sw)) &&
                decide (pyLower (r.word2.getD []) = pyLower (pyStrip tw))) = false := by
            rw [← Bool.not_eq_true]
            intro hcon
            rcases List.any_eq_true.mp hcon with ⟨row, hmem, hp⟩
            refine hdup ⟨row, by simpa using hmem, ?_, ?_⟩
            · have := (Bool.and_eq_true _ _).mp hp
              exact of_decide_eq_true this.1
            · have := (Bool.and_eq_true _ _).mp hp
              exact of_decide_eq_true this.2
          cases hins : insertErr with
          | some e =>
            exact absurd (by simp [SaveWordPairTool._run, if_neg hblank, hsel, hany, hins]) hx
          | none =>
            push_neg at hblank
            exact ⟨hblank.1, hblank.2, rfl, rfl, hdup,
              by simp [SaveWordPairTool._run, if_neg (not_or.mpr hblank), hany, hins]⟩
    · cases hsel : selectErr with
      | some e =>
        exact Or.inl (by simp [SaveWordPairTool._run, if_neg hblank, hsel])
      | none =>
        cases hany : (List.filter (fun r => decide (r.row_user = some user_id)) table).any
            (fun r => decide (pyLower (r.word1.getD []) = pyLower (pyStrip sw)) &&
              decide (pyLower (r.word2.getD []) = pyLower (pyStrip tw))) with
        | true =>
          exact Or.inl (by simp [SaveWordPairTool._run, if_neg hblank, hsel, hany])
        | false =>
          cases hins : insertErr with
          | some e =>
            exact Or.inl (by simp [SaveWordPairTool._run, if_neg hblank, hsel, hany, hins])
          | none =>
            exact Or.inr (by simp [SaveWordPairTool._run, if_neg hblank, hsel, hany, hins])

/-- Witness for C9: a duplicate save attempt leaves the deck unchanged. -/
theorem c9_save_word_pair_witness :
    (SaveWordPairTool._run (str "u1") [⟨some (str "u1"), some (str "Hello"), some (str "Hola")⟩]
        none none (str " hello ") (str "HOLA")).2 =
      [⟨some (str "u1"), some (str "Hello"), some (str "Hola")⟩] :=
  ((c9_save_word_pair (str "u1") [⟨some (str "u1"), some (str "Hello"), some (str "Hola")⟩]
      none none (str " hello ") (str "HOLA")).2.1 (by decide) (by decide) rfl
    ⟨⟨some (str "u1"), some (str "Hello"), some (str "Hola")⟩, by decide, by decide, by decide⟩).1

theorem not_infix_of_containsSub {pat s : List Char} (h : containsSub pat s = false) :
    ¬ pat <:+: s := fun hh => by
  rw [(containsSub_iff pat s).mpr hh] at h
  cases h

theorem stripOfferStep_length_le (content phrase : List Char) (hp : phrase ≠ []) :
    (stripOfferStep content phrase).length ≤ content.length := by
  unfold stripOfferStep
  split
  · have h1 : (pyReplace content phrase []).length ≤ content.length :=
      pyReplace_length_le _ _ _ (by simp) hp
    have h2 := pyStrip_length_le (pyReplace content phrase [])
    have h3 := collapseSpaces_length_le (pyStrip (pyReplace content phrase []))
    dsimp only
    split
    · have h4 :=
        pyStrip_length_le ((collapseSpaces (pyStrip (pyReplace content phrase []))).drop 2)
      rw [List.length_drop] at h4
      omega
    · omega
  · exact Nat.le_refl _

/-- **C4 (amended)**: `_strip_offer_when_already_in_deck` returns its input
unchanged whenever the input is empty or does not contain `"already in your
deck"`, and likewise when no offer phrase occurs in it; when the marker is
present each offer phrase is removed by one left-to-right replace-all pass with
whitespace normalisation, which never lengthens the text but may leave an offer
phrase spliced together from fragments surrounding removed occurrences. -/
theorem c4_strip_offer_amended (content : List Char) :
    ((content = [] ∨ ¬ (alreadyInYourDeck <:+: content)) →
      _strip_offer_when_already_in_deck content = content) ∧
    (¬ (offerPhrase1 <:+: content) → ¬ (offerPhrase2 <:+: content) →
      ¬ (offerPhrase3 <:+: content) →
      _strip_offer_when_already_in_deck content = content) ∧
    (_strip_offer_when_already_in_deck content).length ≤ content.length := by
  refine ⟨?_, ?_, ?_⟩
  · intro h
    simp only [_strip_offer_when_already_in_deck]
    rw [if_pos h]
  · intro h1 h2 h3
    simp only [_strip_offer_when_already_in_deck]
    split
    · rfl
    · rw [show stripOfferStep content offerPhrase1 = content from by
          unfold stripOfferStep; rw [if_neg h1]]
      rw [show stripOfferStep content offerPhrase2 = content from by
          unfold stripOfferStep; rw [if_neg h2]]
      unfold stripOfferStep
      rw [if_neg h3]
  · simp only [_strip_offer_when_already_in_deck]
    split
    · exact Nat.le_refl _
    · calc (stripOfferStep (stripOfferStep (stripOfferStep content offerPhrase1) offerPhrase2)
            offerPhrase3).length
          ≤ (stripOfferStep (stripOfferStep content offerPhrase1) offerPhrase2).length :=
            stripOfferStep_length_le _ _ (by decide)
        _ ≤ (stripOfferStep content offerPhrase1).length :=
            stripOfferStep_length_le _ _ (by decide)
        _ ≤ content.length := stripOfferStep_length_le _ _ (by decide)

/-- Witness for the amended C4: a string without the duplicate marker passes
through unchanged. -/
theorem c4_strip_offer_amended_witness :
    _strip_offer_when_already_in_deck (str "hola means hello") = str "hola means hello" :=
  (c4_strip_offer_amended (str "hola means hello")).1
    (Or.inr (not_infix_of_containsSub (by decide)))

/-- The input refuting C4 as stated: a character, a full offer phrase, the tail of
that phrase, and the duplicate marker.  Replacing the one occurrence of the offer
phrase splices the leading character onto the phrase tail, recreating the full
offer phrase in the output. -/
def c4CexInput : List Char :=
  str "W" ++ offerPhrase3 ++ offerPhrase3.drop 1 ++ str " already in your deck"

set_option maxRecDepth 7000 in
/-- **C4 counterexample**: the input contains `"already in your deck"`, yet the
sanitized output still contains the third offer phrase, contradicting the claim
that the result contains none of the three offer phrases. -/
theorem c4_strip_offer_counterexample :
    alreadyInYourDeck <:+: c4CexInput ∧
    offerPhrase3 <:+: c4CexInput ∧
    offerPhrase3 <:+: _strip_offer_when_already_in_deck c4CexInput :=
  ⟨(containsSub_iff _ _).mp (by decide), (containsSub_iff _ _).mp (by decide),
    (containsSub_iff _ _).mp (by decide)⟩

theorem infix_of_pre {l₁ l₂ : List Char} (h : l₁ <+: l₂) : l₁ <:+: l₂ := by
  rcases h with ⟨post, rfl⟩
  exact ⟨[], post, rfl⟩

theorem infix_of_suf {l₁ l₂ : List Char} (h : l₁ <:+ l₂) : l₁ <:+: l₂ := by
  rcases h with ⟨pre, rfl⟩
  exact ⟨pre, [], by simp⟩

theorem take_pre_self (s : List Char) (k : Nat) : s.take k <+: s := ⟨s.drop k, by simp⟩

theorem infix_drop_take (s : List Char) (k i : Nat) : (s.take k).drop i <:+: s :=
  (infix_of_suf (List.drop_suffix i (s.take k))).trans (infix_of_pre (take_pre_self s k))

/-- **C3**: `_extract_save_tool_message_only` returns its input unchanged on empty,
whitespace-only or marker-free input; with the `"Done! I've added"` marker it
returns the stripped slice from that marker through
`"You'll see it in your next practice session."` (or the marker's suffix when the
end phrase is missing); in the duplicate case it analogously slices from
`"This word pair"` through `"No duplicate was created."`; and the result is
always a contiguous substring of the input. -/
theorem c3_extract_characterization (content : List Char) :
    ((content = [] ∨ pyStrip content = [] ∨
        (¬ (doneMarker <:+: content) ∧ ¬ (alreadyInYourDeck <:+: content) ∧
          ¬ (noDuplicateText <:+: content))) →
      _extract_save_tool_message_only content = content) ∧
    (doneMarker <:+: content →
      ∀ i, pyFind doneMarker content = some i →
        (∀ e, pyFindFrom practicePhrase content i = some e →
          _extract_save_tool_message_only content =
            pyStrip ((content.take (e + practicePhrase.length)).drop i)) ∧
        (pyFindFrom practicePhrase content i = none →
          _extract_save_tool_message_only content = pyStrip (content.drop i))) ∧
    (¬ (doneMarker <:+: content) →
      (alreadyInYourDeck <:+: content ∨ noDuplicateText <:+: content) →
      (∀ i, pyFind thisWordPair content = some i →
        (∀ e, pyFindFrom noDuplicateDot content i = some e →
          _extract_save_tool_message_only content =
            pyStrip ((content.take (e + noDuplicateDot.length)).drop i)) ∧
        (pyFindFrom noDuplicateDot content i = none →
          _extract_save_tool_message_only content = pyStrip (content.drop i))) ∧
      (pyFind thisWordPair content = none →
        _extract_save_tool_message_only content = content)) ∧
    _extract_save_tool_message_only content <:+: content := by
  refine ⟨?_, ?_, ?_, ?_⟩
  · intro h
    by_cases h0 : content = [] ∨ pyStrip content = []
    · simp only [_extract_save_tool_message_only, if_pos h0]
    · rcases h with h | h | ⟨hd, ha, hn⟩
      · exact absurd (Or.inl h) h0
      · exact absurd (Or.inr h) h0
      · simp only [_extract_save_tool_message_only, if_neg h0, if_neg hd,
          if_neg (not_or.mpr ⟨ha, hn⟩)]
  · intro h i hi
    have hcne : content ≠ [] := by
      intro hc
      subst hc
      have h2 : doneMarker = [] := List.eq_nil_of_infix_nil h
      exact absurd h2 (by decide)
    have hsne : pyStrip content ≠ [] :=
      pyStrip_ne_nil_of_mem (h.subset (by decide : 'D' ∈ doneMarker)) (by decide)
    have h0 : ¬ (content = [] ∨ pyStrip content = []) := not_or.mpr ⟨hcne, hsne⟩
    constructor
    · intro e he
      simp only [_extract_save_tool_message_only, if_neg h0, if_pos h, hi, he]
    · intro hnone
      simp only [_extract_save_tool_message_only, if_neg h0, if_pos h, hi, hnone]
  · intro hd hm
    have hcne : content ≠ [] := by
      intro hc
      subst hc
      rcases hm with h | h
      · exact absurd (List.eq_nil_of_infix_nil h) (by decide)
      · exact absurd (List.eq_nil_of_infix_nil h) (by decide)
    have hsne : pyStrip content ≠ [] := by
      rcases hm with h | h
      · exact pyStrip_ne_nil_of_mem (h.subset (by decide : 'a' ∈ alreadyInYourDeck)) (by decide)
      · exact pyStrip_ne_nil_of_mem (h.subset (by decide : 'N' ∈ noDuplicateText)) (by decide)
    have h0 : ¬ (content = [] ∨ pyStrip content = []) := not_or.mpr ⟨hcne, hsne⟩
    constructor
    · intro i hi
      constructor
      · intro e he
        simp only [_extract_save_tool_message_only, if_neg h0, if_neg hd, if_pos hm, hi, he]
      · intro hnone
        simp only [_extract_save_tool_message_only, if_neg h0, if_neg hd, if_pos hm, hi, hnone]
    · intro hnone
      simp only [_extract_save_tool_message_only, if_neg h0, if_neg hd, if_pos hm, hnone]
  · by_cases h0 : content = [] ∨ pyStrip content = []
    · simp only [_extract_save_tool_message_only, if_pos h0]
      exact List.infix_refl _
    · by_cases h1 : doneMarker <:+: content
      · cases hfind : pyFind doneMarker content with
        | none =>
          simp only [_extract_save_tool_message_only, if_neg h0, if_pos h1, hfind]
          exact List.infix_refl _
        | some i =>
          cases hfrom : pyFindFrom practicePhrase content i with
          | none =>
            simp only [_extract_save_tool_message_only, if_neg h0, if_pos h1, hfind, hfrom]
            exact (pyStrip_infix_self _).trans (infix_of_suf (List.drop_suffix i content))
          | some e =>
            simp only [_extract_save_tool_message_only, if_neg h0, if_pos h1, hfind, hfrom]
            exact (pyStrip_infix_self _).trans (infix_drop_take content _ i)
      · by_cases h2 : alreadyInYourDeck <:+: content ∨ noDuplicateText <:+: content
        · cases hfind : pyFind thisWordPair content with
          | none =>
            simp only [_extract_save_tool_message_only, if_neg h0, if_neg h1, if_pos h2, hfind]
            exact List.infix_refl _
          | some i =>
            cases hfrom : pyFindFrom noDuplicateDot content i with
            | none =>
              simp only [_extract_save_tool_message_only, if_neg h0, if_neg h1, if_pos h2,
                hfind, hfrom]
              exact (pyStrip_infix_self _).trans (infix_of_suf (List.drop_suffix i content))
            | some e =>
              simp only [_extract_save_tool_message_only, if_neg h0, if_neg h1, if_pos h2,
                hfind, hfrom]
              exact (pyStrip_infix_self _).trans (infix_drop_take content _ i)
        · simp only [_extract_save_tool_message_only, if_neg h0, if_neg h1, if_neg h2]
          exact List.infix_refl _

set_option maxRecDepth 4000 in
/-- Witness for C3: a reply with chatter around the save-tool message is trimmed
to the tool message alone. -/
theorem c3_extract_characterization_witness :
    _extract_save_tool_message_only
        (str "Sure! Done! I" ++ apostr ++ str "ve added that. You" ++ apostr ++
          str "ll see it in your next practice session. Anything else?") =
      str "Done! I" ++ apostr ++ str "ve added that. You" ++ apostr ++
        str "ll see it in your next practice session." := by
  have h := (c3_extract_characterization
      (str "Sure! Done! I" ++ apostr ++ str "ve added that. You" ++ apostr ++
        str "ll see it in your next practice session. Anything else?")).2.1
    ((containsSub_iff _ _).mp (by decide)) 6 (by decide)
  have h2 := h.1 29 (by decide)
  rw [h2]
  decide

/-- **C1**: the detector returns only `none`, `"translation"` or
`"new_vocabulary"`; it returns a non-`none` value only when the conversation has
at least two messages, the last message is a user message whose normalised
content (stripped, lowered, trailing `.,!?` removed) is non-empty, at most 60
characters, and either a save-confirmation phrase or at most 25 characters
containing a confirmation keyword, and the most recent assistant message
mentions `flashcard` and `save` or `add`; in that case the result is
`"new_vocabulary"` exactly when that assistant message mentions `new word` or
`vocabulary`, and `"translation"` otherwise. -/
theorem c1_detector_characterization (messages : List Msg) :
    (_detect_save_confirmation_and_override_intent messages = none ∨
      _detect_save_confirmation_and_override_intent messages = some (str "translation") ∨
      _detect_save_confirmation_and_override_intent messages = some (str "new_vocabulary")) ∧
    (∀ r, _detect_save_confirmation_and_override_intent messages = some r →
      2 ≤ messages.length ∧
      ∃ lastMsg, messages.getLast? = some lastMsg ∧ lastMsg.role = str "user" ∧
        normalizedUserContent lastMsg ≠ [] ∧
        (normalizedUserContent lastMsg).length ≤ 60 ∧
        (normalizedUserContent lastMsg ∈ _SAVE_CONFIRMATION_PHRASES ∨
          ((∃ w ∈ confirmationKeywords, w <:+: normalizedUserContent lastMsg) ∧
            (normalizedUserContent lastMsg).length ≤ 25)) ∧
        ∃ a, findLastAssistantContent messages = some a ∧
          str "flashcard" <:+: a ∧ (str "save" <:+: a ∨ str "add" <:+: a) ∧
          r = (if str "new word" <:+: a ∨ str "vocabulary" <:+: a
               then str "new_vocabulary" else str "translation")) ∧
    (∀ lastMsg a, 2 ≤ messages.length → messages.getLast? = some lastMsg →
      lastMsg.role = str "user" →
      normalizedUserContent lastMsg ≠ [] →
      (normalizedUserContent lastMsg).length ≤ 60 →
      (normalizedUserContent lastMsg ∈ _SAVE_CONFIRMATION_PHRASES ∨
        ((∃ w ∈ confirmationKeywords, w <:+: normalizedUserContent lastMsg) ∧
          (normalizedUserContent lastMsg).length ≤ 25)) →
      findLastAssistantContent messages = some a →
      str "flashcard" <:+: a → (str "save" <:+: a ∨ str "add" <:+: a) →
      _detect_save_confirmation_and_override_intent messages =
        some (if str "new word" <:+: a ∨ str "vocabulary" <:+: a
              then str "new_vocabulary" else str "translation")) := by
  refine ⟨detectResult_cases messages, ?_, ?_⟩
  · intro r hr
    simp only [_detect_save_confirmation_and_override_intent] at hr
    split at hr
    · cases hr
    · split at hr
      · cases hr
      · next lastMsg heq =>
        split at hr
        · cases hr
        · next hrole =>
          split at hr
          · cases hr
          · next hcnt =>
            split at hr
            · cases hr
            · next hphrase =>
              split at hr
              · cases hr
              · next a heqa =>
                split at hr
                · cases hr
                · next hane =>
                  split at hr
                  · cases hr
                  · next hflash =>
                    split at hr
                    · cases hr
                    · next hsaveadd =>
                      push_neg at hcnt
                      refine ⟨by omega, lastMsg, heq, not_not.mp hrole, hcnt.1,
                        by omega, ?_, a, heqa, not_not.mp hflash, ?_, ?_⟩
                      · rcases not_and_or.mp hphrase with h | h
                        · exact Or.inl (not_not.mp h)
                        · exact Or.inr (not_not.mp h)
                      · rcases not_and_or.mp hsaveadd with h | h
                        · exact Or.inl (not_not.mp h)
                        · exact Or.inr (not_not.mp h)
                      · split at hr
                        · next hcond =>
                          rw [if_pos hcond]
                          exact (Option.some.inj hr).symm
                        · next hcond =>
                          rw [if_neg hcond]
                          exact (Option.some.inj hr).symm
  · intro lastMsg a hlen hlast hrole hne h60 hor hassist hflash hsa
    have hane : a ≠ [] := by
      intro h
      subst h
      exact absurd (List.eq_nil_of_infix_nil hflash) (by decide)
    simp only [_detect_save_confirmation_and_override_intent]
    rw [if_neg (by omega : ¬ messages.length < 2)]
    simp only [hlast]
    rw [if_neg (by simp [hrole])]
    rw [if_neg (not_or.mpr ⟨hne, by omega⟩)]
    rw [if_neg (by
      intro hc
      rcases hor with h | h
      · exact hc.1 h
      · exact hc.2 h)]
    simp only [hassist]
    rw [if_neg hane, if_neg (not_not.mpr hflash)]
    rw [if_neg (by
      intro hc
      rcases hsa with h | h
      · exact hc.1 h
      · exact hc.2 h)]
    split <;> rfl

/-- Witness for C1: a short "Yes!" after an assistant offer to save to the
flashcard deck yields the `"translation"` override. -/
theorem c1_detector_characterization_witness :
    _detect_save_confirmation_and_override_intent
        [⟨str "assistant", str "Shall I save this word to your flashcard deck?"⟩,
          ⟨str "user", str "yes please"⟩] = some (str "translation") := by
  have h := (c1_detector_characterization
      [⟨str "assistant", str "Shall I save this word to your flashcard deck?"⟩,
        ⟨str "user", str "yes please"⟩]).2.2
    ⟨str "user", str "yes please"⟩
    (pyLower (pyStrip (str "Shall I save this word to your flashcard deck?")))
    (by decide) (by decide) rfl (by decide) (by decide)
    (Or.inl (by decide)) (by decide)
    ((containsSub_iff _ _).mp (by decide))
    (Or.inl ((containsSub_iff _ _).mp (by decide)))
  rw [h]
  rw [if_neg (by
    intro hc
    rcases hc with hc | hc <;> exact absurd ((containsSub_iff _ _).mpr hc) (by decide))]

/-! ## Lemmas for the voice-agent prompt construction -/

theorem splitLines_ne_nil (s : List Char) : splitLines s ≠ [] := by
  cases s with
  | nil => simp [splitLines]
  | cons c rest =>
    simp only [splitLines]
    split
    · simp
    · split <;> simp

theorem splitLines_no_nl (a : List Char) (h : nlc ∉ a) : splitLines a = [a] := by
  induction a with
  | nil => rfl
  | cons c rest ih =>
    have hc : c ≠ nlc := by
      intro heq
      exact h (by simp [heq])
    have hrest : nlc ∉ rest := fun hm => h (by simp [hm])
    simp only [splitLines, if_neg hc, ih hrest]

theorem splitLines_append_cons (a b : List Char) (h : nlc ∉ a) :
    splitLines (a ++ nlc :: b) = a :: splitLines b := by
  induction a with
  | nil => simp [splitLines]
  | cons c rest ih =>
    have hc : c ≠ nlc := by
      intro heq
      exact h (by simp [heq])
    have hrest : nlc ∉ rest := fun hm => h (by simp [hm])
    simp only [List.cons_append, splitLines, if_neg hc, List.append_eq]
    rw [ih hrest]

theorem splitLines_joinLines (ls : List (List Char)) (hne : ls ≠ [])
    (h : ∀ l ∈ ls, nlc ∉ l) : splitLines (joinLines ls) = ls := by
  induction ls with
  | nil => exact absurd rfl hne
  | cons l ls ih =>
    cases ls with
    | nil => exact splitLines_no_nl l (h l (by simp))
    | cons l2 ls2 =>
      have hj : joinLines (l :: l2 :: ls2) = l ++ nlc :: joinLines (l2 :: ls2) := rfl
      rw [hj, splitLines_append_cons l _ (h l (by simp)),
        ih (by simp) (fun x hx => h x (by simp [hx]))]

theorem joinWith_mem_inf {sep x : List Char} {ls : List (List Char)} (h : x ∈ ls) :
    x <:+: joinWith sep ls := by
  induction ls with
  | nil => cases h
  | cons l ls ih =>
    cases ls with
    | nil =>
      rcases List.mem_singleton.mp h with rfl
      exact List.infix_refl x
    | cons l2 ls2 =>
      rcases List.mem_cons.mp h with rfl | hmem
      · exact infix_of_pre ⟨sep ++ joinWith sep (l2 :: ls2), by simp [joinWith]⟩
      · have hj : joinWith sep (l :: l2 :: ls2) = (l ++ sep) ++ joinWith sep (l2 :: ls2) := by
          simp [joinWith]
        rw [hj]
        exact (ih hmem).trans (infix_of_suf ⟨l ++ sep, rfl⟩)

theorem joinLines_mem_inf {x : List Char} {ls : List (List Char)} (h : x ∈ ls) :
    x <:+: joinLines ls := by
  induction ls with
  | nil => cases h
  | cons l ls ih =>
    cases ls with
    | nil =>
      rcases List.mem_singleton.mp h with rfl
      exact List.infix_refl x
    | cons l2 ls2 =>
      rcases List.mem_cons.mp h with rfl | hmem
      · exact infix_of_pre ⟨nlc :: joinLines (l2 :: ls2), rfl⟩
      · refine (ih hmem).trans (infix_of_suf ⟨l ++ [nlc], ?_⟩)
        rw [show joinLines (l :: l2 :: ls2) = l ++ nlc :: joinLines (l2 :: ls2) from rfl]
        simp

theorem joinWith_not_mem {c : Char} {sep : List Char} {ls : List (List Char)}
    (hsep : c ∉ sep) (h : ∀ l ∈ ls, c ∉ l) : c ∉ joinWith sep ls := by
  induction ls with
  | nil => simp [joinWith]
  | cons l ls ih =>
    cases ls with
    | nil => exact h l (by simp)
    | cons l2 ls2 =>
      intro hmem
      have hj : joinWith sep (l :: l2 :: ls2) = l ++ sep ++ joinWith sep (l2 :: ls2) := rfl
      rw [hj] at hmem
      rcases List.mem_append.mp hmem with hm | hm
      · rcases List.mem_append.mp hm with hm2 | hm2
        · exact h l (by simp) hm2
        · exact hsep hm2
      · exact ih (fun x hx => h x (by simp [hx])) hm

theorem infix_append_left {x a b : List Char} (h : x <:+: b) : x <:+: a ++ b := by
  rcases h with ⟨pre, post, rfl⟩
  exact ⟨a ++ pre, post, by simp⟩

theorem commonPrefix_self (m : List Char) : commonPrefix m m = m := by
  induction m with
  | nil => rfl
  | cons c rest ih => simp [commonPrefix, ih]

theorem takeWhile_indent_of_head {x : List Char}
    (hx : ∀ c, x.head? = some c → isIndentChar c = false) :
    x.takeWhile isIndentChar = [] := by
  cases x with
  | nil => rfl
  | cons c rest =>
    have := hx c rfl
    simp [List.takeWhile_cons, this]

theorem takeWhile_indent_append (a x : List Char) (ha : ∀ c ∈ a, isIndentChar c = true)
    (hx : ∀ c, x.head? = some c → isIndentChar c = false) :
    (a ++ x).takeWhile isIndentChar = a := by
  induction a with
  | nil => simpa using takeWhile_indent_of_head hx
  | cons c rest ih =>
    have hc := ha c (by simp)
    simp only [List.cons_append, List.takeWhile_cons, hc]
    rw [ih (fun d hd => ha d (by simp [hd]))]
    simp

theorem pyStrip_head_not_ws {s : List Char} {c : Char} {r : List Char}
    (h : pyStrip s = c :: r) : isPyWs c = false := by
  obtain ⟨t, ht⟩ := rstripWs_pre_self (lstripWs s)
  rw [show pyStrip s = rstripWs (lstripWs s) from rfl] at h
  rw [h] at ht
  have hls : s.dropWhile isPyWs = c :: (r ++ t) := by
    rw [show lstripWs s = s.dropWhile isPyWs from rfl] at ht
    rw [← ht]
    simp
  have hne : s.dropWhile isPyWs ≠ [] := by rw [hls]; simp
  have hh := List.head_dropWhile_not isPyWs s hne
  simp only [hls, List.head_cons] at hh
  exact hh

theorem indent_is_ws {c : Char} (h : isIndentChar c = true) : isPyWs c = true := by
  have h2 : (c == ' ') = true ∨ (c == Char.ofNat 9) = true := by
    simpa [isIndentChar] using h
  rcases h2 with h1 | h1 <;> simp [isPyWs, h1]

/-- Header line of the session-vocabulary hint (after dedent, default target). -/
def hdrLine : List Char := str "Vocabulary for this session (english → Portuguese):"

/-- First closing line of the session-vocabulary hint. -/
def useLine : List Char := str "Use only these pairs during the game. When you finish the list,"

/-- Second closing line of the session-vocabulary hint. -/
def loopLine : List Char := str "you may loop back to the beginning."

theorem splitLines_cons_nl (r : List Char) : splitLines (nlc :: r) = [] :: splitLines r := by
  simp [splitLines]

set_option maxRecDepth 4000 in
theorem pyDedent_vocab_eq (pv : List Char) (hne : pv ≠ []) (hnl : nlc ∉ pv)
    (hhead : ∀ c, pv.head? = some c → isIndentChar c = false) :
    pyDedent (joinLines [[], [], sp16 ++ hdrLine, sp16 ++ pv, [], sp16 ++ useLine,
      sp16 ++ loopLine, sp16]) =
    joinLines [[], [], hdrLine, pv, [], useLine, loopLine, []] := by
  have hBall : ((sp16 ++ pv).all isIndentChar) = false := by
    cases hpv : pv with
    | nil => exact absurd hpv hne
    | cons c r =>
      have hc := hhead c (by rw [hpv]; rfl)
      subst hpv
      simp [List.all_append, hc]
  have hBne : sp16 ++ pv ≠ [] := by simp [sp16, str]
  have hsplit := splitLines_joinLines
    [[], [], sp16 ++ hdrLine, sp16 ++ pv, [], sp16 ++ useLine, sp16 ++ loopLine, sp16]
    (by simp)
    (by
      intro l hl
      simp only [List.mem_cons] at hl
      rcases hl with rfl | rfl | rfl | rfl | rfl | rfl | rfl | rfl | h
      · simp
      · simp
      · decide
      · intro hm
        rcases List.mem_append.mp hm with hm2 | hm2
        · exact absurd hm2 (by decide)
        · exact hnl hm2
      · simp
      · decide
      · decide
      · decide
      · cases h)
  unfold pyDedent
  dsimp only
  rw [hsplit]
  have hmap : [[], [], sp16 ++ hdrLine, sp16 ++ pv, [], sp16 ++ useLine, sp16 ++ loopLine,
      sp16].map (fun l => if l ≠ [] ∧ l.all isIndentChar then [] else l) =
      [[], [], sp16 ++ hdrLine, sp16 ++ pv, [], sp16 ++ useLine, sp16 ++ loopLine, []] := by
    simp only [List.map_cons, List.map_nil]
    rw [if_neg (by simp)]
    rw [if_neg (by decide)]
    rw [if_neg (fun hcon => by rw [hBall] at hcon; cases hcon.2)]
    rw [if_neg (by decide)]
    rw [if_neg (by decide)]
    rw [if_pos (by decide)]
  rw [hmap]
  have hfilter : [[], [], sp16 ++ hdrLine, sp16 ++ pv, [], sp16 ++ useLine, sp16 ++ loopLine,
      ([] : List Char)].filter (fun l => l ≠ []) =
      [sp16 ++ hdrLine, sp16 ++ pv, sp16 ++ useLine, sp16 ++ loopLine] := by
    simp only [List.filter_cons, List.filter_nil]
    rw [if_neg (by decide)]
    rw [if_neg (by decide)]
    rw [if_pos (by decide : decide (sp16 ++ hdrLine ≠ []) = true)]
    rw [if_pos (decide_eq_true hBne)]
    rw [if_neg (by decide)]
    rw [if_pos (by decide : decide (sp16 ++ useLine ≠ []) = true)]
    rw [if_pos (by decide : decide (sp16 ++ loopLine ≠ []) = true)]
    rw [if_neg (by decide)]
  rw [hfilter]
  have htw : [sp16 ++ hdrLine, sp16 ++ pv, sp16 ++ useLine, sp16 ++ loopLine].map
      (fun l => l.takeWhile isIndentChar) = [sp16, sp16, sp16, sp16] := by
    simp only [List.map_cons, List.map_nil]
    rw [show (sp16 ++ hdrLine).takeWhile isIndentChar = sp16 from by decide]
    rw [takeWhile_indent_append sp16 pv (by decide) hhead]
    rw [show (sp16 ++ useLine).takeWhile isIndentChar = sp16 from by decide]
    rw [show (sp16 ++ loopLine).takeWhile isIndentChar = sp16 from by decide]
  rw [htw]
  simp only [List.foldl_cons, List.foldl_nil, commonPrefix_self]
  rw [if_neg (by decide : ¬ sp16 = [])]
  congr 1
  simp only [List.map_cons, List.map_nil]
  rw [if_neg (by decide : ¬ sp16.isPrefixOf ([] : List Char) = true)]
  rw [if_pos (by decide : sp16.isPrefixOf (sp16 ++ hdrLine) = true)]
  rw [show (sp16 ++ hdrLine).drop sp16.length = hdrLine from List.drop_left sp16 hdrLine]
  rw [if_pos (List.isPrefixOf_iff_prefix.mpr (List.prefix_append sp16 pv))]
  rw [List.drop_left sp16 pv]
  rw [if_pos (by decide : sp16.isPrefixOf (sp16 ++ useLine) = true)]
  rw [show (sp16 ++ useLine).drop sp16.length = useLine from List.drop_left sp16 useLine]
  rw [if_pos (by decide : sp16.isPrefixOf (sp16 ++ loopLine) = true)]
  rw [show (sp16 ++ loopLine).drop sp16.length = loopLine from List.drop_left sp16 loopLine]

theorem joinWith_cons_head (sep : List Char) (c : Char) (r : List Char)
    (xs : List (List Char)) : ∃ t, joinWith sep ((c :: r) :: xs) = c :: t := by
  cases xs with
  | nil => exact ⟨r, rfl⟩
  | cons y ys => exact ⟨r ++ sep ++ joinWith sep (y :: ys), by simp [joinWith]⟩

theorem load_mem_facts {rows : List DbRow} {lim : Nat} {p : List Char × List Char}
    (h : p ∈ _load_public_word_pairs rows lim) :
    p.1 ≠ [] ∧ p.2 ≠ [] ∧ (∀ c r, p.1 = c :: r → isPyWs c = false) := by
  unfold _load_public_word_pairs at h
  rcases List.mem_filterMap.mp h with ⟨row, hmem, hf⟩
  dsimp only at hf
  split at hf
  · cases hf
  · next hcond =>
    push_neg at hcond
    rw [Option.some.injEq] at hf
    subst hf
    refine ⟨hcond.1, hcond.2, ?_⟩
    intro c r hc
    exact pyStrip_head_not_ws hc

/-- The dedented fallback paragraph of the voice agent's prompt. -/
def fallbackText : List Char :=
  str "No external vocabulary list is available. Instead, you should pick\n" ++
  str "simple and useful English words and translate them into Portuguese\n" ++
  str "yourself, still following the same quiz pattern."

theorem prefix_head_splitLines {x s : List Char} (hx : nlc ∉ x) (h : x <+: s) :
    ∃ l ls, splitLines s = l :: ls ∧ x <+: l := by
  induction s generalizing x with
  | nil =>
    have hxe : x = [] := by
      rcases h with ⟨t, ht⟩
      exact (List.append_eq_nil.mp ht).1
    subst hxe
    exact ⟨[], [], rfl, List.nil_prefix⟩
  | cons c rest ih =>
    cases x with
    | nil =>
      obtain ⟨l, ls, hs⟩ := List.exists_cons_of_ne_nil (splitLines_ne_nil (c :: rest))
      exact ⟨l, ls, hs, List.nil_prefix⟩
    | cons d x' =>
      obtain ⟨t, ht⟩ := h
      have ht2 : d :: (x' ++ t) = c :: rest := by simpa using ht
      injection ht2 with h1 h2
      subst h1
      have hdnl : d ≠ nlc := fun he => hx (by simp [he])
      have hx' : nlc ∉ x' := fun hm => hx (by simp [hm])
      obtain ⟨l, ls, hsr, hpl⟩ := ih hx' ⟨t, h2⟩
      refine ⟨d :: l, ls, ?_, ?_⟩
      · simp only [splitLines, if_neg hdnl, hsr]
      · obtain ⟨u, hu⟩ := hpl
        exact ⟨u, by rw [← hu]; rfl⟩

theorem infix_line_of_splitLines {x s : List Char} (hx : nlc ∉ x) (h : x <:+: s) :
    ∃ l, l ∈ splitLines s ∧ x <:+: l := by
  induction s with
  | nil =>
    have hxe : x = [] := by
      rcases h with ⟨u, v, huv⟩
      have h1 := List.append_eq_nil.mp huv
      exact (List.append_eq_nil.mp h1.1).2
    subst hxe
    exact ⟨[], by simp [splitLines], List.nil_infix⟩
  | cons c rest ih =>
    rcases List.infix_cons_iff.mp h with hpre | hinf
    · obtain ⟨l, ls, hs, hpl⟩ := prefix_head_splitLines hx hpre
      exact ⟨l, by rw [hs]; simp, infix_of_pre hpl⟩
    · obtain ⟨l, hmem, hxl⟩ := ih hinf
      by_cases hc : c = nlc
      · subst hc
        exact ⟨l, by rw [splitLines_cons_nl]; simp [hmem], hxl⟩
      · obtain ⟨l0, ls0, hs0⟩ := List.exists_cons_of_ne_nil (splitLines_ne_nil rest)
        have hsc : splitLines (c :: rest) = (c :: l0) :: ls0 := by
          simp only [splitLines, if_neg hc, hs0]
        rw [hs0] at hmem
        rcases List.mem_cons.mp hmem with heq | hm2
        · subst heq
          exact ⟨c :: l, by rw [hsc]; simp, hxl.trans (infix_of_suf ⟨[c], rfl⟩)⟩
        · exact ⟨l, by rw [hsc]; simp [hm2], hxl⟩

theorem takeWhile_length_le_of_break {u z : List Char} {c : Char}
    (hc : isIndentChar c = false) :
    ((u ++ c :: z).takeWhile isIndentChar).length ≤ u.length := by
  induction u with
  | nil => simp [List.takeWhile_cons, hc]
  | cons d u' ih =>
    cases hd : isIndentChar d
    · simp [List.takeWhile_cons, hd]
    · simp only [List.cons_append, List.takeWhile_cons, hd, if_true, List.length_cons]
      omega

theorem commonPrefix_pre_left (a b : List Char) : commonPrefix a b <+: a := by
  induction a generalizing b with
  | nil => cases b <;> exact List.nil_prefix
  | cons c cs ih =>
    cases b with
    | nil => exact List.nil_prefix
    | cons d ds =>
      by_cases hcd : c = d
      · subst hcd
        have heq : commonPrefix (c :: cs) (c :: ds) = c :: commonPrefix cs ds := by
          simp [commonPrefix]
        rw [heq]
        obtain ⟨u, hu⟩ := ih ds
        exact ⟨u, by rw [List.cons_append, hu]⟩
      · simp only [commonPrefix, if_neg hcd]
        exact List.nil_prefix

theorem commonPrefix_pre_right (a b : List Char) : commonPrefix a b <+: b := by
  induction a generalizing b with
  | nil => cases b <;> exact List.nil_prefix
  | cons c cs ih =>
    cases b with
    | nil => exact List.nil_prefix
    | cons d ds =>
      by_cases hcd : c = d
      · subst hcd
        have heq : commonPrefix (c :: cs) (c :: ds) = c :: commonPrefix cs ds := by
          simp [commonPrefix]
        rw [heq]
        obtain ⟨u, hu⟩ := ih ds
        exact ⟨u, by rw [List.cons_append, hu]⟩
      · simp only [commonPrefix, if_neg hcd]
        exact List.nil_prefix

theorem foldl_commonPrefix_pre (rest : List (List Char)) (i0 : List Char) :
    ∀ x ∈ i0 :: rest, rest.foldl commonPrefix i0 <+: x := by
  induction rest generalizing i0 with
  | nil =>
    intro x hx
    rcases List.mem_singleton.mp hx with rfl
    exact List.prefix_rfl
  | cons j rest' ih =>
    intro x hx
    rw [show (j :: rest').foldl commonPrefix i0 =
      rest'.foldl commonPrefix (commonPrefix i0 j) from rfl]
    rcases List.mem_cons.mp hx with heq | hx2
    · subst heq
      exact (ih (commonPrefix x j) (commonPrefix x j)
        (List.mem_cons_self _ _)).trans (commonPrefix_pre_left x j)
    · rcases List.mem_cons.mp hx2 with heq | hx3
      · subst heq
        exact (ih (commonPrefix i0 x) (commonPrefix i0 x)
          (List.mem_cons_self _ _)).trans (commonPrefix_pre_right i0 x)
      · exact ih (commonPrefix i0 j) x (by simp [hx3])

theorem pyDedent_infix_of_line {x s : List Char} {c : Char} {w : List Char}
    (hxc : x = c :: w) (hc : isPyWs c = false) (hnl : nlc ∉ x) (h : x <:+: s) :
    x <:+: pyDedent s := by
  obtain ⟨l, hmem, hxl⟩ := infix_line_of_splitLines hnl h
  have hcmem : c ∈ l := hxl.sublist.subset (by rw [hxc]; simp)
  have hcind : isIndentChar c = false := by
    cases hic : isIndentChar c
    · rfl
    · exact absurd (indent_is_ws hic) (by simp [hc])
  have hall : l.all isIndentChar = false := by
    cases hal : l.all isIndentChar
    · rfl
    · exact absurd (List.all_eq_true.mp hal c hcmem) (by simp [hcind])
  have hlne : l ≠ [] := List.ne_nil_of_mem hcmem
  have hnb : ¬ (l ≠ [] ∧ l.all isIndentChar) := by
    intro hcon
    rw [hall] at hcon
    cases hcon.2
  have hmeml : l ∈ (splitLines s).map fun q => if q ≠ [] ∧ q.all isIndentChar then [] else q := by
    refine List.mem_map.mpr ⟨l, hmem, ?_⟩
    show (if l ≠ [] ∧ l.all isIndentChar then [] else l) = l
    rw [if_neg hnb]
  obtain ⟨u, v, hl⟩ := hxl
  have hl2 : l = u ++ (x ++ v) := by rw [← hl]; simp
  have hl3 : l = u ++ c :: (w ++ v) := by rw [hl2, hxc]; simp
  have hxl2 : x <:+: l := ⟨u, v, hl⟩
  have htw : ∀ M : List Char, M <+: l.takeWhile isIndentChar → M.length ≤ u.length := by
    intro M hM
    have h1 : (l.takeWhile isIndentChar).length ≤ u.length := by
      rw [hl3]
      exact takeWhile_length_le_of_break hcind
    exact le_trans hM.length_le h1
  simp only [pyDedent]
  split
  · exact hxl2.trans (joinLines_mem_inf hmeml)
  · next i0 rest heq =>
    split
    · exact hxl2.trans (joinLines_mem_inf hmeml)
    · next hmar =>
      have htwmem : l.takeWhile isIndentChar ∈
          (((splitLines s).map fun q => if q ≠ [] ∧ q.all isIndentChar then [] else q).filter
            fun q => q ≠ []).map fun q => q.takeWhile isIndentChar := by
        refine List.mem_map.mpr ⟨l, ?_, rfl⟩
        exact List.mem_filter.mpr ⟨hmeml, by simpa using hlne⟩
      rw [heq] at htwmem
      have hMtw : rest.foldl commonPrefix i0 <+: l.takeWhile isIndentChar :=
        foldl_commonPrefix_pre rest i0 _ htwmem
      have hMl : rest.foldl commonPrefix i0 <+: l :=
        hMtw.trans ⟨l.dropWhile isIndentChar, by simp⟩
      have hulen : (rest.foldl commonPrefix i0).length ≤ u.length := htw _ hMtw
      have hdropinf : x <:+: l.drop (rest.foldl commonPrefix i0).length := by
        refine ⟨u.drop (rest.foldl commonPrefix i0).length, v, ?_⟩
        rw [hl2, List.drop_append_of_le_length hulen, List.append_assoc]
      have hmapmem : l.drop (rest.foldl commonPrefix i0).length ∈
          ((splitLines s).map fun q => if q ≠ [] ∧ q.all isIndentChar then [] else q).map
            fun q => if (rest.foldl commonPrefix i0).isPrefixOf q then
              q.drop (rest.foldl commonPrefix i0).length else q := by
        refine List.mem_map.mpr ⟨l, hmeml, ?_⟩
        rw [if_pos (List.isPrefixOf_iff_prefix.mpr hMl)]
      exact hdropinf.trans (joinLines_mem_inf hmapmem)

theorem preview_infix_vocabHintRaw (wp : List (List Char × List Char)) (tl : List Char) :
    previewPairs wp <:+: vocabHintRaw wp tl := by
  refine ⟨str "\n\n" ++ sp16 ++ str "Vocabulary for this session (english → " ++ tl ++
    str "):\n" ++ sp16,
    str "\n\n" ++ sp16 ++
      str "Use only these pairs during the game. When you finish the list,\n" ++
      sp16 ++ str "you may loop back to the beginning.\n" ++ sp16, ?_⟩
  simp [vocabHintRaw]

set_option maxRecDepth 4000 in
/-- **C8 (amended)**: the voice agent loads at most 100 public pairs, skipping
blank words; each of the **first 20** loaded pairs (only `word_pairs[:20]` is
rendered into the prompt) whose own two words contain no newline appears in the
instructions as `english → target`, regardless of the other pairs' contents;
when the loaded list is empty the instructions contain the fallback text telling
the model to pick its own words. -/
theorem c8_voice_prompt_amended (rows : List DbRow) :
    (_load_public_word_pairs rows 100).length ≤ 100 ∧
    (∀ p ∈ _load_public_word_pairs rows 100, p.1 ≠ [] ∧ p.2 ≠ []) ∧
    (∀ p ∈ (_load_public_word_pairs rows 100).take 20, nlc ∉ p.1 → nlc ∉ p.2 →
      (p.1 ++ str " → " ++ p.2) <:+:
        vocabularyAssistantInstructions (_load_public_word_pairs rows 100)
          (str "Portuguese")) ∧
    (_load_public_word_pairs rows 100 = [] →
      fallbackText <:+:
        vocabularyAssistantInstructions (_load_public_word_pairs rows 100)
          (str "Portuguese")) := by
  refine ⟨?_, fun p hp => ⟨(load_mem_facts hp).1, (load_mem_facts hp).2.1⟩, ?_, ?_⟩
  · unfold _load_public_word_pairs
    refine Nat.le_trans (List.length_filterMap_le _ _) ?_
    rw [List.length_take]
    exact Nat.min_le_left _ _
  · intro p hp hn1 hn2
    have hpl : p ∈ _load_public_word_pairs rows 100 := List.take_subset _ _ hp
    have hne : _load_public_word_pairs rows 100 ≠ [] := List.ne_nil_of_mem hpl
    obtain ⟨hp1ne, hp2ne, hphead⟩ := load_mem_facts hpl
    obtain ⟨c0, r0, hw1⟩ := List.exists_cons_of_ne_nil hp1ne
    have hfmt : p.1 ++ str " → " ++ p.2 = c0 :: (r0 ++ str " → " ++ p.2) := by
      rw [hw1]; simp
    have hc0 : isPyWs c0 = false := hphead c0 r0 hw1
    have hxnl : nlc ∉ p.1 ++ str " → " ++ p.2 := by
      intro hm
      rcases List.mem_append.mp hm with hm2 | hm2
      · rcases List.mem_append.mp hm2 with hm3 | hm3
        · exact hn1 hm3
        · exact absurd hm3 (by decide)
      · exact hn2 hm2
    have hinpre : (p.1 ++ str " → " ++ p.2) <:+:
        previewPairs (_load_public_word_pairs rows 100) :=
      joinWith_mem_inf (List.mem_map.mpr ⟨p, hp, rfl⟩)
    have hded := pyDedent_infix_of_line hfmt hc0 hxnl
      (hinpre.trans (preview_infix_vocabHintRaw (_load_public_word_pairs rows 100)
        (str "Portuguese")))
    have hinstr : vocabularyAssistantInstructions (_load_public_word_pairs rows 100)
        (str "Portuguese") = PROMPT_BASE ++
          pyDedent (vocabHintRaw (_load_public_word_pairs rows 100) (str "Portuguese")) := by
      unfold vocabularyAssistantInstructions
      rw [if_pos hne]
    rw [hinstr]
    exact infix_append_left hded
  · intro hempty
    rw [hempty]
    have hinstr : vocabularyAssistantInstructions [] (str "Portuguese") =
        PROMPT_BASE ++ pyDedent (fallbackHintRaw (str "Portuguese")) := by
      unfold vocabularyAssistantInstructions
      rw [if_neg (by simp)]
    rw [hinstr]
    exact infix_append_left ((containsSub_iff _ _).mp (by decide))

set_option maxRecDepth 4000 in
/-- Witness for the amended C8 at a one-row public deck. -/
theorem c8_voice_prompt_amended_witness :
    (str "cat" ++ str " → " ++ str "gato") <:+:
      vocabularyAssistantInstructions
        (_load_public_word_pairs [⟨none, some (str "cat"), some (str "gato")⟩] 100)
        (str "Portuguese") :=
  (c8_voice_prompt_amended [⟨none, some (str "cat"), some (str "gato")⟩]).2.2.1
    (str "cat", str "gato") (by decide) (by decide) (by decide)

/-- The 21-row public deck refuting C8 as stated. -/
def rows21 : List DbRow :=
  [(str "a0", str "b0"), (str "a1", str "b1"), (str "a2", str "b2"), (str "a3", str "b3"),
    (str "a4", str "b4"), (str "a5", str "b5"), (str "a6", str "b6"), (str "a7", str "b7"),
    (str "a8", str "b8"), (str "a9", str "b9"), (str "a10", str "b10"),
    (str "a11", str "b11"), (str "a12", str "b12"), (str "a13", str "b13"),
    (str "a14", str "b14"), (str "a15", str "b15"), (str "a16", str "b16"),
    (str "a17", str "b17"), (str "a18", str "b18"), (str "a19", str "b19"),
    (str "a20", str "b20")].map fun q => ⟨none, some q.1, some q.2⟩

/-- A one-row public deck whose target word contains a newline. -/
def rowsNl : List DbRow := [⟨none, some (str "a"), some (str "b" ++ [nlc] ++ str "   c")⟩]

set_option maxRecDepth 7000 in
/-- **C8 counterexample**: both qualifiers of the amendment are forced.  With 21
loaded pairs, `a20 → b20` is loaded for the session but absent from the
`VocabularyAssistant` instructions, because the preview renders only
`word_pairs[:20]`; and a loaded pair among the first 20 whose target word
contains a newline (`b\n   c`) is also absent, because `textwrap.dedent` strips
the common margin from the continuation line inside its rendering. -/
theorem c8_voice_prompt_counterexample :
    ((str "a20", str "b20") ∈ _load_public_word_pairs rows21 100 ∧
      ¬ ((str "a20" ++ str " → " ++ str "b20") <:+:
          vocabularyAssistantInstructions (_load_public_word_pairs rows21 100)
            (str "Portuguese"))) ∧
    ((str "a", str "b" ++ [nlc] ++ str "   c") ∈
        (_load_public_word_pairs rowsNl 100).take 20 ∧
      ¬ ((str "a" ++ str " → " ++ (str "b" ++ [nlc] ++ str "   c")) <:+:
          vocabularyAssistantInstructions (_load_public_word_pairs rowsNl 100)
            (str "Portuguese"))) :=
  ⟨⟨by decide, not_infix_of_containsSub (by decide)⟩,
    ⟨by decide, not_infix_of_containsSub (by decide)⟩⟩

/-! ## Lemmas towards idempotence of the save-message extractor -/

theorem prefix_take_of_le {p l : List Char} {n : Nat} (h : p <+: l) (hn : p.length ≤ n) :
    p <+: l.take n := by
  rw [List.prefix_iff_eq_take] at h ⊢
  rw [List.take_take, Nat.min_eq_left hn]
  exact h

theorem prefix_of_prefix_take {p l : List Char} {n : Nat} (h : p <+: l.take n) : p <+: l :=
  h.trans (take_pre_self l n)

theorem not_prefix_drop_of_pre {r x p : List Char} (hrx : r <+: x)
    (hnone : ∀ j, ¬ p <+: x.drop j) (hp : p ≠ []) : ∀ j, ¬ p <+: r.drop j := by
  intro j hpre
  rcases hrx with ⟨t, rfl⟩
  by_cases hj : j ≤ r.length
  · refine hnone j ?_
    rw [List.drop_append_of_le_length hj]
    exact hpre.trans (List.prefix_append _ t)
  · rw [List.drop_eq_nil_of_le (by omega)] at hpre
    exact hp (List.prefix_nil.mp hpre)

theorem pyStrip_single {c : Char} (hc : isPyWs c = false) : pyStrip [c] = [c] := by
  simp [pyStrip, lstripWs, rstripWs, List.dropWhile_cons, hc]

theorem pyStrip_cons_append_last (c : Char) (m : List Char) (d : Char)
    (hc : isPyWs c = false) (hd : isPyWs d = false) :
    pyStrip (c :: (m ++ [d])) = c :: (m ++ [d]) := by
  rw [pyStrip, lstripWs_cons_of_not _ hc]
  have h := rstripWs_append_last (c :: m) [] d hd
  have h2 : rstripWs ([] : List Char) = [] := rfl
  rw [h2] at h
  simp only [List.append_nil] at h
  simpa using h

theorem pyStrip_eq_self_of_ends {s : List Char} {c d : Char} {x z : List Char}
    (h1 : s = c :: x) (h2 : s = z ++ [d]) (hc : isPyWs c = false) (hd : isPyWs d = false) :
    pyStrip s = s := by
  cases z with
  | nil =>
    simp only [List.nil_append] at h2
    rw [h2] at h1
    injection h1 with hdc hx
    rw [h2, hdc]
    exact pyStrip_single hc
  | cons z0 zs =>
    rw [h1] at h2
    simp only [List.cons_append] at h2
    injection h2 with hcz hx
    rw [h1, hx]
    exact pyStrip_cons_append_last c zs d hc hd

theorem extract_eq_of_empty {content : List Char} (h : content = [] ∨ pyStrip content = []) :
    _extract_save_tool_message_only content = content := by
  simp only [_extract_save_tool_message_only, if_pos h]

theorem extract_done_slice {content : List Char} {i e : Nat}
    (h0 : ¬ (content = [] ∨ pyStrip content = [])) (hd : doneMarker <:+: content)
    (hi : pyFind doneMarker content = some i)
    (he : pyFindFrom practicePhrase content i = some e) :
    _extract_save_tool_message_only content =
      pyStrip ((content.take (e + practicePhrase.length)).drop i) := by
  simp only [_extract_save_tool_message_only, if_neg h0, if_pos hd, hi, he]

theorem extract_done_tail {content : List Char} {i : Nat}
    (h0 : ¬ (content = [] ∨ pyStrip content = [])) (hd : doneMarker <:+: content)
    (hi : pyFind doneMarker content = some i)
    (he : pyFindFrom practicePhrase content i = none) :
    _extract_save_tool_message_only content = pyStrip (content.drop i) := by
  simp only [_extract_save_tool_message_only, if_neg h0, if_pos hd, hi, he]

theorem extract_dup_slice {content : List Char} {i e : Nat}
    (h0 : ¬ (content = [] ∨ pyStrip content = [])) (hd : ¬ (doneMarker <:+: content))
    (hm : alreadyInYourDeck <:+: content ∨ noDuplicateText <:+: content)
    (hi : pyFind thisWordPair content = some i)
    (he : pyFindFrom noDuplicateDot content i = some e) :
    _extract_save_tool_message_only content =
      pyStrip ((content.take (e + noDuplicateDot.length)).drop i) := by
  simp only [_extract_save_tool_message_only, if_neg h0, if_neg hd, if_pos hm, hi, he]

theorem extract_dup_tail {content : List Char} {i : Nat}
    (h0 : ¬ (content = [] ∨ pyStrip content = [])) (hd : ¬ (doneMarker <:+: content))
    (hm : alreadyInYourDeck <:+: content ∨ noDuplicateText <:+: content)
    (hi : pyFind thisWordPair content = some i)
    (he : pyFindFrom noDuplicateDot content i = none) :
    _extract_save_tool_message_only content = pyStrip (content.drop i) := by
  simp only [_extract_save_tool_message_only, if_neg h0, if_neg hd, if_pos hm, hi, he]

theorem extract_dup_nostart {content : List Char}
    (h0 : ¬ (content = [] ∨ pyStrip content = [])) (hd : ¬ (doneMarker <:+: content))
    (hm : alreadyInYourDeck <:+: content ∨ noDuplicateText <:+: content)
    (hi : pyFind thisWordPair content = none) :
    _extract_save_tool_message_only content = content := by
  simp only [_extract_save_tool_message_only, if_neg h0, if_neg hd, if_pos hm, hi]

theorem extract_eq_of_nomarker {content : List Char}
    (h0 : ¬ (content = [] ∨ pyStrip content = [])) (hd : ¬ (doneMarker <:+: content))
    (hm : ¬ (alreadyInYourDeck <:+: content ∨ noDuplicateText <:+: content)) :
    _extract_save_tool_message_only content = content := by
  simp only [_extract_save_tool_message_only, if_neg h0, if_neg hd, if_neg hm]

theorem slice_extract_facts {s m em : List Char} {i e' : Nat}
    (hmc : ∃ c mt, m = c :: mt ∧ isPyWs c = false)
    (hed : ∃ z d, em = z ++ [d] ∧ isPyWs d = false)
    (hml : m.length ≤ e' + em.length)
    (hi : pyFind m s = some i)
    (he : pyFind em (s.drop i) = some e') :
    ((s.take ((e' + i) + em.length)).drop i) = (s.drop i).take (e' + em.length) ∧
    m <+: (s.drop i).take (e' + em.length) ∧
    ((s.drop i).take (e' + em.length)).drop e' = em ∧
    ((s.drop i).take (e' + em.length)).length = e' + em.length ∧
    (∀ j, j < e' → ¬ em <+: ((s.drop i).take (e' + em.length)).drop j) ∧
    pyStrip ((s.drop i).take (e' + em.length)) = (s.drop i).take (e' + em.length) := by
  obtain ⟨c, mt, hm_eq, hc⟩ := hmc
  obtain ⟨z, d, hz_eq, hdw⟩ := hed
  have hemne : em ≠ [] := by rw [hz_eq]; simp
  have hmp : m <+: s.drop i := pyFind_sound hi
  have hep : em <+: (s.drop i).drop e' := pyFind_sound he
  have hlen : e' + em.length ≤ (s.drop i).length := pyFind_le_length he hemne
  have hR1 : ((s.take ((e' + i) + em.length)).drop i) = (s.drop i).take (e' + em.length) := by
    rw [List.take_drop, show (e' + i) + em.length = i + (e' + em.length) from by omega]
  have hpre2 : m <+: (s.drop i).take (e' + em.length) := prefix_take_of_le hmp hml
  have hdropE : ((s.drop i).take (e' + em.length)).drop e' = em := by
    rw [List.drop_take, show e' + em.length - e' = em.length from by omega]
    rw [List.prefix_iff_eq_take] at hep
    exact hep.symm
  have hlen2 : ((s.drop i).take (e' + em.length)).length = e' + em.length := by
    rw [List.length_take]
    omega
  have hmin : ∀ j, j < e' → ¬ em <+: ((s.drop i).take (e' + em.length)).drop j := by
    intro j hj hpre
    refine pyFind_min he j hj ?_
    rw [List.drop_take] at hpre
    exact prefix_of_prefix_take hpre
  refine ⟨hR1, hpre2, hdropE, hlen2, hmin, ?_⟩
  obtain ⟨t, ht⟩ := hpre2
  have h1 : (s.drop i).take (e' + em.length) = c :: (mt ++ t) := by
    rw [← ht, hm_eq]
    simp
  have h2 : (s.drop i).take (e' + em.length) =
      (((s.drop i).take (e' + em.length)).take e' ++ z) ++ [d] := by
    conv_lhs => rw [← List.take_append_drop e' ((s.drop i).take (e' + em.length))]
    rw [hdropE, hz_eq, ← List.append_assoc]
  exact pyStrip_eq_self_of_ends h1 h2 hc hdw

theorem rstrip_extract_facts {s m : List Char} {i : Nat}
    (hmc : ∃ c mt, m = c :: mt ∧ isPyWs c = false)
    (hml : ∃ z d, m = z ++ [d] ∧ isPyWs d = false)
    (hi : pyFind m s = some i) :
    m <+: pyStrip (s.drop i) ∧ pyStrip (pyStrip (s.drop i)) = pyStrip (s.drop i) ∧
    pyStrip (s.drop i) ≠ [] ∧ pyStrip (s.drop i) <+: s.drop i := by
  obtain ⟨c, mt, hm_eq, hc⟩ := hmc
  obtain ⟨z, d, hz_eq, hdw⟩ := hml
  have hmp : m <+: s.drop i := pyFind_sound hi
  obtain ⟨t, ht⟩ := hmp
  have hcons : s.drop i = c :: (mt ++ t) := by
    rw [← ht, hm_eq]
    simp
  have hl : lstripWs (s.drop i) = s.drop i := by
    rw [hcons]
    exact lstripWs_cons_of_not _ hc
  have hps : pyStrip (s.drop i) = rstripWs (s.drop i) := by rw [pyStrip, hl]
  have hr_eq : rstripWs (s.drop i) = m ++ rstripWs t := by
    rw [← ht, hz_eq]
    exact rstripWs_append_last z t d hdw
  have hcons2 : rstripWs (s.drop i) = c :: (mt ++ rstripWs t) := by
    rw [hr_eq, hm_eq]
    simp
  refine ⟨?_, ?_, ?_, ?_⟩
  · rw [hps, hr_eq]
    exact List.prefix_append m _
  · rw [hps, pyStrip, hcons2, lstripWs_cons_of_not _ hc, ← hcons2, rstripWs_idem]
  · rw [hps, hr_eq, hm_eq]
    simp
  · rw [hps]
    exact rstripWs_pre_self _

/-- **C10**: the save-message sanitizer `_extract_save_tool_message_only` of `ai/run.py`
is idempotent: applying it to its own output returns that output unchanged, because
each non-trivial branch produces a stripped slice that still starts with the branch
marker, still contains (or still lacks) the end phrase at the same minimal offset,
and is invariant under a further `strip()`. -/
theorem c10_extract_idempotent (content : List Char) :
    _extract_save_tool_message_only (_extract_save_tool_message_only content) =
      _extract_save_tool_message_only content := by
  by_cases h0 : content = [] ∨ pyStrip content = []
  · have h := extract_eq_of_empty h0
    rw [h]
    exact h
  · by_cases hd : doneMarker <:+: content
    · obtain ⟨i, hi⟩ := pyFind_some_of_occurs hd
      cases hfrom : pyFindFrom practicePhrase content i with
      | some e =>
        have hmap := hfrom
        rw [pyFindFrom] at hmap
        obtain ⟨e', he', heq⟩ := Option.map_eq_some'.mp hmap
        subst heq
        obtain ⟨hR1, hpre2, hdropE, hlen2, hmin, hstrip⟩ :=
          @slice_extract_facts content doneMarker practicePhrase i e'
            ⟨'D', str "one! I" ++ apostr ++ str "ve added", by decide, by decide⟩
            ⟨str "You" ++ apostr ++ str "ll see it in your next practice session", '.',
              by decide, by decide⟩
            (by
              have h1 : doneMarker.length ≤ practicePhrase.length := by decide
              omega)
            hi he'
        have hGc : _extract_save_tool_message_only content =
            (content.drop i).take (e' + practicePhrase.length) := by
          rw [extract_done_slice h0 hd hi hfrom, hR1, hstrip]
        have hpos : 0 < practicePhrase.length := by decide
        have hne : ((content.drop i).take (e' + practicePhrase.length)) ≠ [] := by
          intro hnil
          rw [hnil] at hlen2
          simp only [List.length_nil] at hlen2
          omega
        have hr0 : ¬ (((content.drop i).take (e' + practicePhrase.length)) = [] ∨
            pyStrip ((content.drop i).take (e' + practicePhrase.length)) = []) := by
          rw [hstrip]
          simp only [or_self]
          exact hne
        have hrd : doneMarker <:+: (content.drop i).take (e' + practicePhrase.length) :=
          infix_of_pre hpre2
        have hri : pyFind doneMarker ((content.drop i).take (e' + practicePhrase.length)) =
            some 0 := pyFind_of_prefix hpre2
        have hre : pyFind practicePhrase ((content.drop i).take (e' + practicePhrase.length)) =
            some e' := by
          refine pyFind_exact ?_ hmin
          rw [hdropE]
        have hrfrom : pyFindFrom practicePhrase
            ((content.drop i).take (e' + practicePhrase.length)) 0 = some (e' + 0) := by
          rw [pyFindFrom, List.drop_zero, hre]
          rfl
        rw [hGc, extract_done_slice hr0 hrd hri hrfrom, Nat.add_zero, List.drop_zero,
          List.take_of_length_le (le_of_eq hlen2)]
        exact hstrip
      | none =>
        have hmap := hfrom
        rw [pyFindFrom] at hmap
        have he' : pyFind practicePhrase (content.drop i) = none := Option.map_eq_none'.mp hmap
        obtain ⟨hpre2, hstrip2, hrne, hrpre⟩ :=
          @rstrip_extract_facts content doneMarker i
            ⟨'D', str "one! I" ++ apostr ++ str "ve added", by decide, by decide⟩
            ⟨str "Done! I" ++ apostr ++ str "ve adde", 'd', by decide, by decide⟩
            hi
        have hGc : _extract_save_tool_message_only content = pyStrip (content.drop i) :=
          extract_done_tail h0 hd hi hfrom
        have hr0 : ¬ (pyStrip (content.drop i) = [] ∨
            pyStrip (pyStrip (content.drop i)) = []) := by
          rw [hstrip2]
          simp only [or_self]
          exact hrne
        have hrd : doneMarker <:+: pyStrip (content.drop i) := infix_of_pre hpre2
        have hri : pyFind doneMarker (pyStrip (content.drop i)) = some 0 :=
          pyFind_of_prefix hpre2
        have hrnone : pyFind practicePhrase (pyStrip (content.drop i)) = none := by
          cases hf : pyFind practicePhrase (pyStrip (content.drop i)) with
          | none => rfl
          | some j =>
            exact absurd (pyFind_sound hf)
              (not_prefix_drop_of_pre hrpre (pyFind_none he') (by decide) j)
        have hrfrom : pyFindFrom practicePhrase (pyStrip (content.drop i)) 0 = none := by
          rw [pyFindFrom, List.drop_zero, hrnone]
          rfl
        rw [hGc, extract_done_tail hr0 hrd hri hrfrom, List.drop_zero]
        exact hstrip2
    · by_cases hm : alreadyInYourDeck <:+: content ∨ noDuplicateText <:+: content
      · cases hithis : pyFind thisWordPair content with
        | none =>
          have h := extract_dup_nostart h0 hd hm hithis
          rw [h]
          exact h
        | some i =>
          cases hfrom : pyFindFrom noDuplicateDot content i with
          | some e =>
            have hmap := hfrom
            rw [pyFindFrom] at hmap
            obtain ⟨e', he', heq⟩ := Option.map_eq_some'.mp hmap
            subst heq
            obtain ⟨hR1, hpre2, hdropE, hlen2, hmin, hstrip⟩ :=
              @slice_extract_facts content thisWordPair noDuplicateDot i e'
                ⟨'T', str "his word pair", by decide, by decide⟩
                ⟨str "No duplicate was created", '.', by decide, by decide⟩
                (by
                  have h1 : thisWordPair.length ≤ noDuplicateDot.length := by decide
                  omega)
                hithis he'
            have hGc : _extract_save_tool_message_only content =
                (content.drop i).take (e' + noDuplicateDot.length) := by
              rw [extract_dup_slice h0 hd hm hithis hfrom, hR1, hstrip]
            have hpos : 0 < noDuplicateDot.length := by decide
            have hne : ((content.drop i).take (e' + noDuplicateDot.length)) ≠ [] := by
              intro hnil
              rw [hnil] at hlen2
              simp only [List.length_nil] at hlen2
              omega
            have hr0 : ¬ (((content.drop i).take (e' + noDuplicateDot.length)) = [] ∨
                pyStrip ((content.drop i).take (e' + noDuplicateDot.length)) = []) := by
              rw [hstrip]
              simp only [or_self]
              exact hne
            have hrinf : (content.drop i).take (e' + noDuplicateDot.length) <:+: content :=
              (infix_of_pre (take_pre_self _ _)).trans
                (infix_of_suf (List.drop_suffix i content))
            have hrdnot : ¬ doneMarker <:+:
                (content.drop i).take (e' + noDuplicateDot.length) :=
              fun hcon => hd (hcon.trans hrinf)
            have hndt : noDuplicateText <+:
                ((content.drop i).take (e' + noDuplicateDot.length)).drop e' := by
              rw [hdropE]
              exact ⟨[Char.ofNat 46], by decide⟩
            have hrm : alreadyInYourDeck <:+:
                ((content.drop i).take (e' + noDuplicateDot.length)) ∨
                noDuplicateText <:+: ((content.drop i).take (e' + noDuplicateDot.length)) :=
              Or.inr (infix_iff_exists_drop.mpr ⟨e', hndt⟩)
            have hri : pyFind thisWordPair ((content.drop i).take (e' + noDuplicateDot.length)) =
                some 0 := pyFind_of_prefix hpre2
            have hre : pyFind noDuplicateDot
                ((content.drop i).take (e' + noDuplicateDot.length)) = some e' := by
              refine pyFind_exact ?_ hmin
              rw [hdropE]
            have hrfrom : pyFindFrom noDuplicateDot
                ((content.drop i).take (e' + noDuplicateDot.length)) 0 = some (e' + 0) := by
              rw [pyFindFrom, List.drop_zero, hre]
              rfl
            rw [hGc, extract_dup_slice hr0 hrdnot hrm hri hrfrom, Nat.add_zero, List.drop_zero,
              List.take_of_length_le (le_of_eq hlen2)]
            exact hstrip
          | none =>
            have hmap := hfrom
            rw [pyFindFrom] at hmap
            have he' : pyFind noDuplicateDot (content.drop i) = none :=
              Option.map_eq_none'.mp hmap
            obtain ⟨hpre2, hstrip2, hrne, hrpre⟩ :=
              @rstrip_extract_facts content thisWordPair i
                ⟨'T', str "his word pair", by decide, by decide⟩
                ⟨str "This word pai", 'r', by decide, by decide⟩
                hithis
            have hGc : _extract_save_tool_message_only content = pyStrip (content.drop i) :=
              extract_dup_tail h0 hd hm hithis hfrom
            have hr0 : ¬ (pyStrip (content.drop i) = [] ∨
                pyStrip (pyStrip (content.drop i)) = []) := by
              rw [hstrip2]
              simp only [or_self]
              exact hrne
            have hrinf : pyStrip (content.drop i) <:+: content :=
              (infix_of_pre hrpre).trans (infix_of_suf (List.drop_suffix i content))
            have hrdnot : ¬ doneMarker <:+: pyStrip (content.drop i) :=
              fun hcon => hd (hcon.trans hrinf)
            have hri : pyFind thisWordPair (pyStrip (content.drop i)) = some 0 :=
              pyFind_of_prefix hpre2
            have hrnone : pyFind noDuplicateDot (pyStrip (content.drop i)) = none := by
              cases hf : pyFind noDuplicateDot (pyStrip (content.drop i)) with
              | none => rfl
              | some j =>
                exact absurd (pyFind_sound hf)
                  (not_prefix_drop_of_pre hrpre (pyFind_none he') (by decide) j)
            have hrfrom : pyFindFrom noDuplicateDot (pyStrip (content.drop i)) 0 = none := by
              rw [pyFindFrom, List.drop_zero, hrnone]
              rfl
            by_cases hmr : alreadyInYourDeck <:+: pyStrip (content.drop i) ∨
                noDuplicateText <:+: pyStrip (content.drop i)
            · rw [hGc, extract_dup_tail hr0 hrdnot hmr hri hrfrom, List.drop_zero]
              exact hstrip2
            · rw [hGc, extract_eq_of_nomarker hr0 hrdnot hmr]
      · have h := extract_eq_of_nomarker h0 hd hm
        rw [h]
        exact h
